import Mathlib

/-!
Verification of the regime-rotation decision engine of the `dashboardv2`
repository: quadrant momentum scoring, top-2 regime selection, volatility
weighted allocation with an EMA trend filter, the pending-entry confirmation
state machine, ATR stop levels, block-bootstrap resampling and the pending
orders manager of the live system.

All numeric code is embedded over `ℚ`.  Price tables are modelled after the
`ffill().bfill()` step of `fetch_data`, i.e. as total functions: a price value
is always present, so the `pd.notna(price)` guards of the source are
identically true.  Quantities that can genuinely be `NaN` in the sources
(rolling volatilities before the window has filled, live snapshot columns that
are absent) are modelled as `Option ℚ`.  The rolling standard deviation kernel
`returns.rolling(w).std() * sqrt(252)` produces irrational values, so it is
carried as an opaque parameter `stdFn : List ℚ → ℚ` applied to the window of
daily returns it reads; every theorem below is proved for an arbitrary kernel.
-/

/-- The four macro quadrants, in the insertion order of the configuration
dictionaries `QUAD_ALLOCATIONS` and `QUAD_INDICATORS` (`Q1, Q2, Q3, Q4`). -/
inductive Quadrant : Type
  | Q1 | Q2 | Q3 | Q4
  deriving DecidableEq, Repr

open Quadrant

/-- Column order of the `quad_scores` tables: the quadrant dictionaries are
iterated in insertion order `Q1, Q2, Q3, Q4`. -/
def quadList : List Quadrant := [Q1, Q2, Q3, Q4]

/-- Index position of a quadrant among the score columns. -/
def quadIdx : Quadrant → ℕ
  | Q1 => 0
  | Q2 => 1
  | Q3 => 2
  | Q4 => 3

/-!
## The quadrant sorts

`determine_top_quads` ranks the score row with
`Series.sort_values(ascending=False)`.  pandas' `nargsort` reverses the
values *before* the stable ascending argsort and reverses the resulting
indexer *after*, so the net effect is a *stable descending* sort: among equal
scores the original column order `Q1, Q2, Q3, Q4` is kept, i.e. on a tie `Q1`
ranks before `Q2` before `Q3` before `Q4`.  CPython's
`sorted(items, key=weight, reverse=True)` (the `max_positions` truncation) is
likewise stable with equal keys kept in original order.  Both are embedded as
one stable descending insertion sort `sortDescBy`: an element is inserted
before the first element with a *strictly smaller* key, so it stays after
every earlier input element with an equal key.
-/

/-- Stable descending insertion by a rational key. -/
def insDesc {α : Type} (key : α → ℚ) (x : α) : List α → List α
  | [] => [x]
  | y :: ys => if key x < key y then y :: insDesc key x ys else x :: y :: ys

/-- Stable descending sort by a rational key: `sort_values(ascending=False)`
on the row seen as a list of labels, and `sorted(l, key=key, reverse=True)`. -/
def sortDescBy {α : Type} (key : α → ℚ) (l : List α) : List α :=
  l.foldr (insDesc key) []

lemma insDesc_perm {α : Type} (key : α → ℚ) (x : α) (l : List α) :
    List.Perm (insDesc key x l) (x :: l) := by
  induction l with
  | nil => simp [insDesc]
  | cons y ys ih =>
      by_cases h : key x < key y
      · simp only [insDesc, if_pos h]
        exact List.Perm.trans (List.Perm.cons y ih) (List.Perm.swap x y ys)
      · simp [insDesc, h]

lemma sortDescBy_perm {α : Type} (key : α → ℚ) (l : List α) :
    List.Perm (sortDescBy key l) l := by
  induction l with
  | nil => simp [sortDescBy]
  | cons x xs ih =>
      exact List.Perm.trans (insDesc_perm key x (sortDescBy key xs)) (List.Perm.cons x ih)

lemma insDesc_pairwise {α : Type} (key : α → ℚ) (x : α) (l : List α)
    (hsort : l.Pairwise (fun a b => key b ≤ key a)) :
    (insDesc key x l).Pairwise (fun a b => key b ≤ key a) := by
  induction l with
  | nil => simp [insDesc]
  | cons y ys ih =>
      rcases List.pairwise_cons.mp hsort with ⟨hy, hys⟩
      by_cases h : key x < key y
      · rw [insDesc, if_pos h]
        refine List.pairwise_cons.mpr ⟨?_, ih hys⟩
        intro z hz
        rcases List.mem_cons.mp ((insDesc_perm key x ys).mem_iff.mp hz) with rfl | hzz
        · exact le_of_lt h
        · exact hy z hzz
      · rw [insDesc, if_neg h]
        push_neg at h
        refine List.pairwise_cons.mpr ⟨?_, hsort⟩
        intro z hz
        rcases List.mem_cons.mp hz with rfl | hz'
        · exact h
        · exact le_trans (hy z hz') h

lemma sortDescBy_pairwise {α : Type} (key : α → ℚ) (l : List α) :
    (sortDescBy key l).Pairwise (fun a b => key b ≤ key a) := by
  induction l with
  | nil => simp [sortDescBy]
  | cons x xs ih =>
      exact insDesc_pairwise key x (sortDescBy key xs) ih

/-- Stability invariant of the descending insertion: inserting `x` into a
lexicographically sorted list (key descending, ties by ascending priority
index) each of whose elements came later in the input — has a strictly larger
priority index — keeps it lexicographically sorted. -/
lemma insDesc_pairwise_lex {α : Type} (key : α → ℚ) (prio : α → ℕ) (x : α)
    (l : List α) (hidx : ∀ y ∈ l, prio x < prio y)
    (hsort : l.Pairwise (fun a b => key b ≤ key a ∧ (key a = key b → prio a < prio b))) :
    (insDesc key x l).Pairwise
      (fun a b => key b ≤ key a ∧ (key a = key b → prio a < prio b)) := by
  induction l with
  | nil => simp [insDesc]
  | cons y ys ih =>
      rcases List.pairwise_cons.mp hsort with ⟨hy, hys⟩
      by_cases h : key x < key y
      · rw [insDesc, if_pos h]
        refine List.pairwise_cons.mpr
          ⟨?_, ih (fun z hz => hidx z (List.mem_cons.mpr (Or.inr hz))) hys⟩
        intro z hz
        rcases List.mem_cons.mp ((insDesc_perm key x ys).mem_iff.mp hz) with rfl | hzz
        · exact ⟨le_of_lt h, fun he => absurd he (ne_of_gt h)⟩
        · exact hy z hzz
      · rw [insDesc, if_neg h]
        push_neg at h
        refine List.pairwise_cons.mpr ⟨?_, hsort⟩
        intro z hz
        rcases List.mem_cons.mp hz with rfl | hz'
        · exact ⟨h, fun _ => hidx z (List.mem_cons_self _ _)⟩
        · rcases hy z hz' with ⟨h1, _⟩
          exact ⟨le_trans h1 h, fun _ => hidx z (List.mem_cons.mpr (Or.inr hz'))⟩

/-- The stable descending sort of a list whose priority indices strictly
increase is sorted lexicographically: key descending, and among equal keys the
original (priority) order. -/
lemma sortDescBy_pairwise_lex {α : Type} (key : α → ℚ) (prio : α → ℕ)
    (l : List α) (hl : l.Pairwise (fun a b => prio a < prio b)) :
    (sortDescBy key l).Pairwise
      (fun a b => key b ≤ key a ∧ (key a = key b → prio a < prio b)) := by
  induction l with
  | nil => simp [sortDescBy]
  | cons x xs ih =>
      rcases List.pairwise_cons.mp hl with ⟨hx, hxs⟩
      refine insDesc_pairwise_lex key prio x (sortDescBy key xs) ?_ (ih hxs)
      intro y hy
      exact hx y ((sortDescBy_perm key xs).mem_iff.mp hy)

/-- `Series.sort_values(ascending=False)` on a quadrant score row: stable
descending sort of the score columns, equal scores kept in the original
column order. -/
def sort_values_desc (s : Quadrant → ℚ) : List Quadrant :=
  sortDescBy s quadList

/-- `determine_top_quads` for one date: the two head elements of the
descending sort (`scores.index[0]`, `scores.index[1]`). -/
def determine_top_quads (s : Quadrant → ℚ) : Quadrant × Quadrant :=
  ((sort_values_desc s).getD 0 Q1, (sort_values_desc s).getD 1 Q1)

/-- The strict order that the descending sort realises: higher score first,
and on equal scores the quadrant with the smaller column index first
(`Q1` before `Q2` before `Q3` before `Q4`). -/
def rankLt (s : Quadrant → ℚ) (a b : Quadrant) : Prop :=
  s b < s a ∨ (s a = s b ∧ quadIdx a < quadIdx b)

instance (s : Quadrant → ℚ) (a b : Quadrant) : Decidable (rankLt s a b) := by
  unfold rankLt; infer_instance

/-- The descending sort is pairwise strictly decreasing in the lexicographic
order (score descending, original column order on ties). -/
lemma sort_values_desc_pairwise (s : Quadrant → ℚ) :
    (sort_values_desc s).Pairwise (rankLt s) := by
  have h := sortDescBy_pairwise_lex s quadIdx quadList (by decide)
  refine h.imp ?_
  intro a b hab
  rcases hab with ⟨h1, h2⟩
  rcases lt_or_eq_of_le h1 with h3 | h3
  · exact Or.inl h3
  · exact Or.inr ⟨h3.symm, h2 h3.symm⟩

lemma sort_values_desc_perm (s : Quadrant → ℚ) :
    List.Perm (sort_values_desc s) quadList := by
  unfold sort_values_desc
  exact sortDescBy_perm s quadList

lemma rankLt_antisymm (s : Quadrant → ℚ) :
    ∀ a b : Quadrant, rankLt s a b → rankLt s b a → a = b := by
  intro a b hab hba
  rcases hab with h1 | ⟨he1, hi1⟩ <;> rcases hba with h2 | ⟨he2, hi2⟩
  · exact absurd h2 (not_lt_of_gt h1)
  · exact absurd h1 (by rw [he2]; exact lt_irrefl _)
  · exact absurd h2 (by rw [he1]; exact lt_irrefl _)
  · exact absurd hi2 (Nat.lt_asymm hi1)

/-- Any permutation of the four quadrants that is sorted in the fixed
lexicographic order coincides with the pandas descending sort. -/
lemma sort_values_desc_unique (s : Quadrant → ℚ) (l : List Quadrant)
    (hperm : List.Perm l quadList) (hpair : l.Pairwise (rankLt s)) :
    l = sort_values_desc s := by
  haveI : IsAntisymm Quadrant (rankLt s) := ⟨rankLt_antisymm s⟩
  exact List.eq_of_perm_of_sorted
    (List.Perm.trans hperm (sort_values_desc_perm s).symm) hpair
    (sort_values_desc_pairwise s)

/-- **C7.** On every date — in particular whenever two or more quadrants have
exactly equal momentum scores — the ranking produced by
`determine_top_quads` is sorted with respect to one fixed total tie-break
order (`rankLt`: score descending, ties resolved by the original column order
`Q1 > Q2 > Q3 > Q4`, since the pandas stable descending sort keeps equal
scores in insertion order), and any ranking of the four quadrants that
respects that fixed order selects the same `(primary, secondary)` pair.
Hence two runs over the same price data always select the same pair. -/
theorem determine_top_quads_fixed_tie_break (s : Quadrant → ℚ) :
    (sort_values_desc s).Pairwise (rankLt s) ∧
    List.Perm (sort_values_desc s) quadList ∧
    (∀ l : List Quadrant, List.Perm l quadList → l.Pairwise (rankLt s) →
      determine_top_quads s = (l.getD 0 Q1, l.getD 1 Q1)) := by
  refine ⟨sort_values_desc_pairwise s, sort_values_desc_perm s, ?_⟩
  intro l hperm hpair
  rw [sort_values_desc_unique s l hperm hpair]
  rfl

/-- Witness for C7: at an all-equal score row the fixed tie-break order picks
`(Q1, Q2)`, reproducibly. -/
theorem determine_top_quads_fixed_tie_break_witness :
    determine_top_quads (fun _ => (3 : ℚ)) = (Q1, Q2) := by
  have h := (determine_top_quads_fixed_tie_break (fun _ => (3 : ℚ))).2.2
    [Q1, Q2, Q3, Q4] (by decide) (by decide)
  simpa using h

/-!
## Generic association-list helpers

Python dicts keyed by ticker are modelled as association lists with no
duplicate keys (insertion order preserved, new keys appended at the end).
-/

/-- Sum of the values of an association list (`sum(d.values())`). -/
def sumVals {T : Type} (m : List (T × ℚ)) : ℚ := (m.map Prod.snd).sum

@[simp] lemma sumVals_nil {T : Type} : sumVals ([] : List (T × ℚ)) = 0 := rfl

@[simp] lemma sumVals_cons {T : Type} (p : T × ℚ) (m : List (T × ℚ)) :
    sumVals (p :: m) = p.2 + sumVals m := by
  simp [sumVals]

lemma sumVals_append {T : Type} (m₁ m₂ : List (T × ℚ)) :
    sumVals (m₁ ++ m₂) = sumVals m₁ + sumVals m₂ := by
  simp [sumVals]

lemma sumVals_filter_not {T : Type} (p : T × ℚ → Bool) (m : List (T × ℚ)) :
    sumVals (m.filter p) + sumVals (m.filter fun x => !(p x)) = sumVals m := by
  induction m with
  | nil => simp
  | cons x xs ih =>
      by_cases h : p x
      · simp only [List.filter_cons, h, Bool.not_true, if_true, if_false, sumVals_cons,
          Bool.false_eq_true]
        rw [add_assoc, ih]
      · simp only [List.filter_cons, h, Bool.not_false, if_true, if_false, sumVals_cons,
          Bool.false_eq_true, Bool.not_eq_true, eq_self_iff_true]
        rw [add_left_comm, ih]

lemma lookup_eq_none_of_not_mem_keys {T : Type} [DecidableEq T]
    (m : List (T × ℚ)) (t : T) (h : t ∉ m.map Prod.fst) : m.lookup t = none := by
  induction m with
  | nil => rfl
  | cons x xs ih =>
      simp only [List.map_cons, List.mem_cons, not_or] at h
      have hne : (t == x.1) = false := by
        simpa using h.1
      simp only [List.lookup, hne]
      exact ih h.2

/-!
## `SignalGenerator.calculate_target_weights` (src/signal_generator.py)

The function consumes the last row of the price/EMA/volatility tables, so we
embed it over a per-ticker snapshot.  Prices and EMAs are total (the price
frame is `ffill().bfill()`-ed); the rolling volatility may be `NaN`, hence
`Option ℚ`.  The ticker universe is an arbitrary type with decidable
equality.
-/

namespace SG

/-- Static configuration visible to `SignalGenerator`: the price-frame
columns, the `QUAD_ALLOCATIONS` ticker lists, and `max_positions` (`0`
encodes a falsy `max_positions`, which disables truncation). -/
structure Config (T : Type) where
  columns : List T
  alloc : Quadrant → List T
  max_positions : ℕ

/-- `self.quad_leverage` from `SignalGenerator.__init__`:
`Q1 ↦ 1.5`, all other quadrants `↦ 1.0`. -/
def quad_leverage : Quadrant → ℚ
  | Quadrant.Q1 => 3 / 2
  | _ => 1

/-- Last-row market snapshot: `price_data[t].iloc[-1]`, `ema_data[t].iloc[-1]`
and `volatility_data[t].iloc[-1]`. -/
structure Snapshot (T : Type) where
  price : T → ℚ
  ema : T → ℚ
  vol : T → Option ℚ

variable {T : Type} [DecidableEq T]

/-- `quad_vols`: tickers of the quadrant that are present in the price frame
and have a defined, strictly positive volatility. -/
def quad_vols (cfg : Config T) (snap : Snapshot T) (q : Quadrant) : List (T × ℚ) :=
  ((cfg.alloc q).filter (fun t => t ∈ cfg.columns)).filterMap fun t =>
    match snap.vol t with
    | some v => if 0 < v then some (t, v) else none
    | none => none

/-- `vol_weights`: direct volatility chasing, normalised to the quadrant
leverage: `weight = vol / total_vol * quad_leverage`. -/
def vol_weights (cfg : Config T) (snap : Snapshot T) (q : Quadrant) : List (T × ℚ) :=
  let qv := quad_vols cfg snap q
  let total := (qv.map Prod.snd).sum
  qv.map fun p => (p.1, p.2 / total * quad_leverage q)

/-- The EMA trend filter: `current_price > current_ema` (strict). -/
def passes_ema (snap : Snapshot T) (t : T) : Bool :=
  snap.ema t < snap.price t

/-- The Python dict update `final_weights[t] += w` / `final_weights[t] = w`:
add to the entry if the key is present, otherwise append at the end. -/
def upsert (m : List (T × ℚ)) (t : T) (w : ℚ) : List (T × ℚ) :=
  if (m.lookup t).isSome then
    m.map fun p => if p.1 = t then (p.1, p.2 + w) else p
  else m ++ [(t, w)]

/-- The inner loop `for ticker, weight in vol_weights.items()` applying the
EMA filter and accumulating into `final_weights`. -/
def applyFiltered (snap : Snapshot T) (l : List (T × ℚ)) (m : List (T × ℚ)) :
    List (T × ℚ) :=
  l.foldl (fun m' p => if passes_ema snap p.1 then upsert m' p.1 p.2 else m') m

/-- `final_weights` before the `max_positions` truncation: the loop
`for quad in [top1, top2]`. -/
def final_weights_pre (cfg : Config T) (snap : Snapshot T) (top1 top2 : Quadrant) :
    List (T × ℚ) :=
  ([top1, top2]).foldl (fun m q => applyFiltered snap (vol_weights cfg snap q) m) []

/-- The computed weights that fail the EMA filter: they are simply not added
to `final_weights`, i.e. the allocation stays in cash. -/
def cash_weights (cfg : Config T) (snap : Snapshot T) (top1 top2 : Quadrant) :
    List (T × ℚ) :=
  ([top1, top2]).flatMap fun q =>
    (vol_weights cfg snap q).filter fun p => !(passes_ema snap p.1)

/-- The `max_positions` post-step: when the dict holds more than `N`
positions, keep the `N` largest weights (stable descending Python sort) and
rescale them by `original_total / new_total` (or `1` if the retained total is
not positive). -/
def truncate_top_n (N : ℕ) (fw : List (T × ℚ)) : List (T × ℚ) :=
  if N ≠ 0 ∧ N < fw.length then
    ((sortDescBy Prod.snd fw).take N).map fun p =>
      (p.1, p.2 * (if 0 < sumVals ((sortDescBy Prod.snd fw).take N)
                   then sumVals fw / sumVals ((sortDescBy Prod.snd fw).take N)
                   else 1))
  else fw

/-- `SignalGenerator.calculate_target_weights` for one snapshot and the two
selected quadrants. -/
def calculate_target_weights (cfg : Config T) (snap : Snapshot T)
    (top1 top2 : Quadrant) : List (T × ℚ) :=
  truncate_top_n cfg.max_positions (final_weights_pre cfg snap top1 top2)

end SG

namespace SG

variable {T : Type} [DecidableEq T]

lemma lookup_isSome_iff_mem_keys (m : List (T × ℚ)) (t : T) :
    (m.lookup t).isSome ↔ t ∈ m.map Prod.fst := by
  induction m with
  | nil => simp
  | cons x xs ih =>
      by_cases hx : t = x.1
      · have hb : (t == x.1) = true := by simpa using hx
        simp [List.lookup, hb, hx]
      · have hb : (t == x.1) = false := by simpa using hx
        simp [List.lookup, hb, ih, hx]

lemma map_addIf_of_not_mem (xs : List (T × ℚ)) (t : T) (w : ℚ)
    (h : t ∉ xs.map Prod.fst) :
    (xs.map fun p => if p.1 = t then (p.1, p.2 + w) else p) = xs := by
  induction xs with
  | nil => rfl
  | cons x l ih =>
      simp only [List.map_cons, List.mem_cons, not_or] at h
      have hx : ¬ x.1 = t := fun he => h.1 he.symm
      simp only [List.map_cons, if_neg hx]
      rw [ih h.2]

lemma sumVals_map_addIf (m : List (T × ℚ)) (t : T) (w : ℚ)
    (h : (m.map Prod.fst).Nodup) (hmem : t ∈ m.map Prod.fst) :
    sumVals (m.map fun p => if p.1 = t then (p.1, p.2 + w) else p)
      = sumVals m + w := by
  induction m with
  | nil => simp at hmem
  | cons x xs ih =>
      simp only [List.map_cons, List.nodup_cons] at h
      rcases List.mem_cons.mp hmem with he | hmem'
      · have hx : x.1 = t := he.symm
        rw [List.map_cons, if_pos hx, map_addIf_of_not_mem xs t w (hx ▸ h.1)]
        simp only [sumVals_cons]
        ring
      · have hx : ¬ x.1 = t := fun he => h.1 (he ▸ hmem')
        rw [List.map_cons, if_neg hx]
        simp only [sumVals_cons, ih h.2 hmem']
        ring

lemma sumVals_upsert (m : List (T × ℚ)) (t : T) (w : ℚ)
    (h : (m.map Prod.fst).Nodup) :
    sumVals (upsert m t w) = sumVals m + w := by
  unfold upsert
  by_cases hs : (m.lookup t).isSome
  · rw [if_pos hs]
    exact sumVals_map_addIf m t w h ((lookup_isSome_iff_mem_keys m t).mp hs)
  · rw [if_neg hs, sumVals_append]
    simp

lemma keys_upsert (m : List (T × ℚ)) (t : T) (w : ℚ) :
    (upsert m t w).map Prod.fst
      = if (m.lookup t).isSome then m.map Prod.fst else m.map Prod.fst ++ [t] := by
  unfold upsert
  split
  · rw [List.map_map]
    congr 1
    funext p
    by_cases hp : p.1 = t <;> simp [hp]
  · simp

lemma keys_nodup_upsert (m : List (T × ℚ)) (t : T) (w : ℚ)
    (h : (m.map Prod.fst).Nodup) : ((upsert m t w).map Prod.fst).Nodup := by
  rw [keys_upsert]
  by_cases hs : (m.lookup t).isSome
  · rw [if_pos hs]; exact h
  · rw [if_neg hs]
    have ht : t ∉ m.map Prod.fst := fun hm =>
      hs ((lookup_isSome_iff_mem_keys m t).mpr hm)
    rw [List.nodup_append]
    refine ⟨h, List.nodup_singleton t, ?_⟩
    intro a ha hat
    rw [List.mem_singleton] at hat
    exact ht (hat ▸ ha)

lemma mem_keys_upsert (m : List (T × ℚ)) (t a : T) (w : ℚ) :
    a ∈ (upsert m t w).map Prod.fst → a ∈ m.map Prod.fst ∨ a = t := by
  rw [keys_upsert]
  by_cases hs : (m.lookup t).isSome
  · rw [if_pos hs]; exact Or.inl
  · rw [if_neg hs]
    intro ha
    rcases List.mem_append.mp ha with h1 | h1
    · exact Or.inl h1
    · exact Or.inr (by simpa using h1)

lemma pos_upsert (m : List (T × ℚ)) (t : T) (w : ℚ)
    (hm : ∀ p ∈ m, 0 < p.2) (hw : 0 < w) :
    ∀ p ∈ upsert m t w, 0 < p.2 := by
  unfold upsert
  intro p hp
  by_cases hs : (m.lookup t).isSome
  · rw [if_pos hs] at hp
    rcases List.mem_map.mp hp with ⟨q, hq, hqe⟩
    by_cases hqt : q.1 = t
    · rw [if_pos hqt] at hqe
      rw [← hqe]
      exact add_pos (hm q hq) hw
    · rw [if_neg hqt] at hqe
      exact hqe ▸ hm q hq
  · rw [if_neg hs] at hp
    rcases List.mem_append.mp hp with h1 | h1
    · exact hm p h1
    · simp only [List.mem_singleton] at h1
      exact h1 ▸ hw

lemma applyFiltered_cons (snap : Snapshot T) (x : T × ℚ) (xs : List (T × ℚ))
    (m : List (T × ℚ)) :
    applyFiltered snap (x :: xs) m
      = applyFiltered snap xs (if passes_ema snap x.1 then upsert m x.1 x.2 else m) :=
  rfl

lemma keys_nodup_applyFiltered (snap : Snapshot T) (l m : List (T × ℚ))
    (h : (m.map Prod.fst).Nodup) :
    ((applyFiltered snap l m).map Prod.fst).Nodup := by
  induction l generalizing m with
  | nil => exact h
  | cons x xs ih =>
      rw [applyFiltered_cons]
      by_cases hx : passes_ema snap x.1
      · rw [if_pos hx]
        exact ih _ (keys_nodup_upsert m x.1 x.2 h)
      · rw [if_neg hx]
        exact ih _ h

lemma sumVals_applyFiltered (snap : Snapshot T) (l m : List (T × ℚ))
    (h : (m.map Prod.fst).Nodup) :
    sumVals (applyFiltered snap l m)
      = sumVals m + sumVals (l.filter fun p => passes_ema snap p.1) := by
  induction l generalizing m with
  | nil => simp [applyFiltered]
  | cons x xs ih =>
      rw [applyFiltered_cons]
      by_cases hx : passes_ema snap x.1
      · rw [if_pos hx, ih _ (keys_nodup_upsert m x.1 x.2 h),
          sumVals_upsert m x.1 x.2 h]
        simp only [List.filter_cons, hx, if_true, sumVals_cons]
        ring
      · rw [if_neg hx, ih _ h]
        simp only [List.filter_cons, hx, if_false, Bool.false_eq_true]

lemma not_mem_keys_applyFiltered (snap : Snapshot T) (l m : List (T × ℚ)) (t : T)
    (ht : ¬ passes_ema snap t) (hm : t ∉ m.map Prod.fst) :
    t ∉ (applyFiltered snap l m).map Prod.fst := by
  induction l generalizing m with
  | nil => exact hm
  | cons x xs ih =>
      rw [applyFiltered_cons]
      by_cases hx : passes_ema snap x.1
      · rw [if_pos hx]
        refine ih _ ?_
        intro hmem
        rcases mem_keys_upsert m x.1 t x.2 hmem with h1 | h1
        · exact hm h1
        · exact ht (h1 ▸ hx)
      · rw [if_neg hx]
        exact ih _ hm

lemma pos_applyFiltered (snap : Snapshot T) (l m : List (T × ℚ))
    (hm : ∀ p ∈ m, 0 < p.2) (hl : ∀ p ∈ l, 0 < p.2) :
    ∀ p ∈ applyFiltered snap l m, 0 < p.2 := by
  induction l generalizing m with
  | nil => exact hm
  | cons x xs ih =>
      rw [applyFiltered_cons]
      by_cases hx : passes_ema snap x.1
      · rw [if_pos hx]
        exact ih _ (pos_upsert m x.1 x.2 hm (hl x (List.mem_cons_self _ _)))
          (fun p hp => hl p (List.mem_cons.mpr (Or.inr hp)))
      · rw [if_neg hx]
        exact ih _ hm (fun p hp => hl p (List.mem_cons.mpr (Or.inr hp)))

lemma quad_leverage_pos (q : Quadrant) : 0 < quad_leverage q := by
  cases q <;> norm_num [quad_leverage]

lemma quad_vols_pos (cfg : Config T) (snap : Snapshot T) (q : Quadrant) :
    ∀ p ∈ quad_vols cfg snap q, 0 < p.2 := by
  intro p hp
  rcases List.mem_filterMap.mp hp with ⟨t, _, hmatch⟩
  rcases hv : snap.vol t with _ | v <;> rw [hv] at hmatch
  · simp at hmatch
  · by_cases h0 : 0 < v
    · have h1 : some (t, v) = some p := by
        rw [← hmatch]
        simp [h0]
      have h2 : (t, v) = p := Option.some_inj.mp h1
      rw [← h2]
      exact h0
    · have h1 : (none : Option (T × ℚ)) = some p := by
        rw [← hmatch]
        simp [h0]
      exact absurd h1 (by simp)

lemma quad_vols_total_pos (cfg : Config T) (snap : Snapshot T) (q : Quadrant)
    (h : quad_vols cfg snap q ≠ []) :
    0 < ((quad_vols cfg snap q).map Prod.snd).sum := by
  refine List.sum_pos _ ?_ ?_
  · intro a ha
    rcases List.mem_map.mp ha with ⟨p, hp, hpe⟩
    exact hpe ▸ quad_vols_pos cfg snap q p hp
  · simpa using h

lemma sum_div_mul (l : List (T × ℚ)) (c lev : ℚ) :
    ((l.map fun p => p.2 / c * lev)).sum = (l.map Prod.snd).sum / c * lev := by
  induction l with
  | nil => simp
  | cons x xs ih =>
      simp only [List.map_cons, List.sum_cons, ih]
      ring

lemma sumVals_vol_weights (cfg : Config T) (snap : Snapshot T) (q : Quadrant)
    (h : quad_vols cfg snap q ≠ []) :
    sumVals (vol_weights cfg snap q) = quad_leverage q := by
  unfold vol_weights sumVals
  rw [List.map_map]
  have he : (Prod.snd ∘ fun p : T × ℚ =>
      (p.1, p.2 / ((quad_vols cfg snap q).map Prod.snd).sum * quad_leverage q))
      = fun p : T × ℚ =>
        p.2 / ((quad_vols cfg snap q).map Prod.snd).sum * quad_leverage q := rfl
  rw [he, sum_div_mul]
  rw [div_self (ne_of_gt (quad_vols_total_pos cfg snap q h))]
  ring

lemma vol_weights_pos (cfg : Config T) (snap : Snapshot T) (q : Quadrant) :
    ∀ p ∈ vol_weights cfg snap q, 0 < p.2 := by
  intro p hp
  unfold vol_weights at hp
  rcases List.mem_map.mp hp with ⟨r, hr, hre⟩
  have hq : quad_vols cfg snap q ≠ [] := by
    intro hnil
    rw [hnil] at hr
    exact absurd hr (List.not_mem_nil r)
  have h2 : 0 < r.2 := quad_vols_pos cfg snap q r hr
  have h3 := quad_vols_total_pos cfg snap q hq
  have : p.2 = r.2 / ((quad_vols cfg snap q).map Prod.snd).sum * quad_leverage q := by
    rw [← hre]
  rw [this]
  exact mul_pos (div_pos h2 h3) (quad_leverage_pos q)

lemma sumVals_map_scale (l : List (T × ℚ)) (c : ℚ) :
    sumVals (l.map fun p => (p.1, p.2 * c)) = sumVals l * c := by
  induction l with
  | nil => simp
  | cons x xs ih =>
      simp only [List.map_cons, sumVals_cons, ih]
      ring

lemma take_sumVals_pos (N : ℕ) (fw : List (T × ℚ))
    (hN : N ≠ 0) (hlen : N < fw.length) (hpos : ∀ p ∈ fw, 0 < p.2) :
    0 < sumVals ((sortDescBy Prod.snd fw).take N) := by
  refine List.sum_pos _ ?_ ?_
  · intro a ha
    rcases List.mem_map.mp ha with ⟨p, hp, hpe⟩
    have hp' : p ∈ fw :=
      (sortDescBy_perm Prod.snd fw).mem_iff.mp (List.mem_of_mem_take hp)
    exact hpe ▸ hpos p hp'
  · have hlen' : ((sortDescBy Prod.snd fw).take N).length = N := by
      rw [List.length_take, (sortDescBy_perm Prod.snd fw).length_eq]
      exact Nat.min_eq_left (le_of_lt hlen)
    intro hnil
    rw [List.map_eq_nil_iff] at hnil
    rw [hnil] at hlen'
    exact hN hlen'.symm

lemma sumVals_truncate (N : ℕ) (fw : List (T × ℚ)) (hpos : ∀ p ∈ fw, 0 < p.2) :
    sumVals (truncate_top_n N fw) = sumVals fw := by
  unfold truncate_top_n
  by_cases hc : N ≠ 0 ∧ N < fw.length
  · rw [if_pos hc]
    have hts := take_sumVals_pos N fw hc.1 hc.2 hpos
    rw [if_pos hts, sumVals_map_scale]
    rw [mul_comm, div_mul_cancel₀ _ (ne_of_gt hts)]
  · rw [if_neg hc]

lemma mem_keys_truncate (N : ℕ) (fw : List (T × ℚ)) (a : T)
    (ha : a ∈ (truncate_top_n N fw).map Prod.fst) : a ∈ fw.map Prod.fst := by
  unfold truncate_top_n at ha
  by_cases hc : N ≠ 0 ∧ N < fw.length
  · rw [if_pos hc] at ha
    rcases List.mem_map.mp ha with ⟨p, hp, hpe⟩
    rcases List.mem_map.mp hp with ⟨r, hr, hre⟩
    have hr' : r ∈ fw :=
      (sortDescBy_perm Prod.snd fw).mem_iff.mp (List.mem_of_mem_take hr)
    refine List.mem_map.mpr ⟨r, hr', ?_⟩
    rw [← hpe, ← hre]
  · rw [if_neg hc] at ha
    exact ha

/-- **C2.** For every snapshot and every pair of selected quadrants with
usable volatility data: a ticker whose price is not strictly above its EMA
never appears in the final allocation (it receives zero weight), and the sum
of the admitted weights plus the weights held back as cash — the computed
volatility weights of the filtered-out tickers, which are *not*
redistributed — equals the combined leverage budget of the two selected
quadrants. -/
theorem trend_filter_no_redistribution (cfg : Config T) (snap : Snapshot T)
    (top1 top2 : Quadrant)
    (h1 : quad_vols cfg snap top1 ≠ []) (h2 : quad_vols cfg snap top2 ≠ []) :
    (∀ t : T, ¬ passes_ema snap t = true →
      (calculate_target_weights cfg snap top1 top2).lookup t = none) ∧
    sumVals (calculate_target_weights cfg snap top1 top2)
        + sumVals (cash_weights cfg snap top1 top2)
      = quad_leverage top1 + quad_leverage top2 := by
  have hfwp : final_weights_pre cfg snap top1 top2
      = applyFiltered snap (vol_weights cfg snap top2)
          (applyFiltered snap (vol_weights cfg snap top1) []) := rfl
  have hnodup1 : ((applyFiltered snap (vol_weights cfg snap top1)
      ([] : List (T × ℚ))).map Prod.fst).Nodup :=
    keys_nodup_applyFiltered snap _ [] (by simp)
  have hpos : ∀ p ∈ final_weights_pre cfg snap top1 top2, 0 < p.2 := by
    rw [hfwp]
    exact pos_applyFiltered snap _ _
      (pos_applyFiltered snap _ [] (by simp) (vol_weights_pos cfg snap top1))
      (vol_weights_pos cfg snap top2)
  constructor
  · intro t ht
    apply lookup_eq_none_of_not_mem_keys
    intro hmem
    have hmem' := mem_keys_truncate cfg.max_positions _ t hmem
    rw [hfwp] at hmem'
    exact not_mem_keys_applyFiltered snap _ _ t ht
      (not_mem_keys_applyFiltered snap _ [] t ht (by simp)) hmem'
  · have hsum : sumVals (final_weights_pre cfg snap top1 top2)
        = sumVals ((vol_weights cfg snap top1).filter fun p => passes_ema snap p.1)
          + sumVals ((vol_weights cfg snap top2).filter fun p => passes_ema snap p.1) := by
      rw [hfwp, sumVals_applyFiltered snap _ _ hnodup1,
        sumVals_applyFiltered snap _ [] (by simp)]
      simp [add_comm]
    have hcash : sumVals (cash_weights cfg snap top1 top2)
        = sumVals ((vol_weights cfg snap top1).filter fun p => !(passes_ema snap p.1))
          + sumVals ((vol_weights cfg snap top2).filter fun p => !(passes_ema snap p.1)) := by
      unfold cash_weights
      simp only [List.flatMap_cons, List.flatMap_nil, List.append_nil]
      exact sumVals_append _ _
    unfold calculate_target_weights
    rw [sumVals_truncate cfg.max_positions _ hpos, hsum, hcash]
    have e1 := sumVals_filter_not (fun p : T × ℚ => passes_ema snap p.1)
      (vol_weights cfg snap top1)
    have e2 := sumVals_filter_not (fun p : T × ℚ => passes_ema snap p.1)
      (vol_weights cfg snap top2)
    have g1 := sumVals_vol_weights cfg snap top1 h1
    have g2 := sumVals_vol_weights cfg snap top2 h2
    linarith

/-- **C8.** Whenever the admitted positions exceed `max_positions = N` (with
`N` truthy), the truncation step keeps exactly the `N` tickers at the head of
the stable descending weight sort — every retained pre-scale weight is at
least every dropped weight — and rescales them so that their sum equals the
pre-truncation total. -/
theorem truncation_keeps_top_n (N : ℕ) (fw : List (T × ℚ))
    (hN : N ≠ 0) (hlen : N < fw.length) (hpos : ∀ p ∈ fw, 0 < p.2) :
    (truncate_top_n N fw).length = N ∧
    (truncate_top_n N fw).map Prod.fst
      = ((sortDescBy Prod.snd fw).take N).map Prod.fst ∧
    (∀ a ∈ (sortDescBy Prod.snd fw).take N,
      ∀ b ∈ (sortDescBy Prod.snd fw).drop N, b.2 ≤ a.2) ∧
    sumVals (truncate_top_n N fw) = sumVals fw := by
  have hco : N ≠ 0 ∧ N < fw.length := ⟨hN, hlen⟩
  have hunf : truncate_top_n N fw
      = ((sortDescBy Prod.snd fw).take N).map fun p =>
          (p.1, p.2 * (if 0 < sumVals ((sortDescBy Prod.snd fw).take N)
                       then sumVals fw / sumVals ((sortDescBy Prod.snd fw).take N)
                       else 1)) := by
    unfold truncate_top_n
    rw [if_pos hco]
  refine ⟨?_, ?_, ?_, sumVals_truncate N fw hpos⟩
  · rw [hunf, List.length_map, List.length_take,
      (sortDescBy_perm Prod.snd fw).length_eq]
    exact Nat.min_eq_left (le_of_lt hlen)
  · rw [hunf, List.map_map]
    rfl
  · have hpair := sortDescBy_pairwise (Prod.snd : T × ℚ → ℚ) fw
    rw [← List.take_append_drop N (sortDescBy Prod.snd fw)] at hpair
    exact (List.pairwise_append.mp hpair).2.2

end SG

/-- Concrete configuration for the `SG` witnesses: three tickers, `Q1` holds
tickers `0, 1` and `Q2` holds ticker `2`; `max_positions = 1` so the
truncation step fires. -/
def cfgW : SG.Config ℕ :=
  { columns := [0, 1, 2]
  , alloc := fun q => match q with
      | Quadrant.Q1 => [0, 1]
      | Quadrant.Q2 => [2]
      | _ => []
  , max_positions := 1 }

/-- Concrete snapshot for the `SG` witnesses: ticker `1` sits below its EMA,
the others above; all volatilities equal `1`. -/
def snapW : SG.Snapshot ℕ :=
  { price := fun t => if t = 1 then 5 else 10
  , ema := fun _ => 8
  , vol := fun _ => some 1 }

/-- Witness for C2 at the concrete snapshot: ticker `1` (below EMA) is
absent from the final allocation and the admitted-plus-cash total equals
`1.5 + 1`. -/
theorem trend_filter_no_redistribution_witness :
    (SG.calculate_target_weights cfgW snapW Quadrant.Q1 Quadrant.Q2).lookup 1 = none ∧
    sumVals (SG.calculate_target_weights cfgW snapW Quadrant.Q1 Quadrant.Q2)
        + sumVals (SG.cash_weights cfgW snapW Quadrant.Q1 Quadrant.Q2)
      = SG.quad_leverage Quadrant.Q1 + SG.quad_leverage Quadrant.Q2 := by
  have h := SG.trend_filter_no_redistribution cfgW snapW Quadrant.Q1 Quadrant.Q2
    (by decide) (by decide)
  exact ⟨h.1 1 (by decide), h.2⟩

/-- Concrete admitted-weights dict for the C8 witness. -/
def fwW : List (ℕ × ℚ) := [(0, 3 / 4), (2, 1), (5, 1 / 2)]

/-- Witness for C8: truncating three positions to two keeps two entries and
preserves the total weight. -/
theorem truncation_keeps_top_n_witness :
    (SG.truncate_top_n 2 fwW).length = 2 ∧
    sumVals (SG.truncate_top_n 2 fwW) = sumVals fwW := by
  have h := SG.truncation_keeps_top_n 2 fwW (by decide) (by decide) (by norm_num [fwW])
  exact ⟨h.1, h.2.2.2⟩

/-!
## `PendingOrdersManager` (src/pending_orders.py)

The JSON state `{'entries': {...}, 'metadata': {...}}` is modelled as a
record; the entries dict is an association list.  Dates are `ℕ`.  The
per-ticker snapshot data handed to `confirm_and_get_entries`
(`price_data[t].iloc[-1]`, `ema_data[t].iloc[-1]`) is `Option ℚ`: `none`
models a ticker absent from the frame (the `None` branch of the source).
Display-only string fields (`regime`, rejection log rows) are omitted.
-/

namespace PO

/-- One pending entry as written by `add_pending_entries`
(`weight`, `ema_at_signal`, `signal_date`, `quadrants`, `atr`;
the redundant `target_weight_pct` is `weight * 100` and is omitted). -/
structure PendingEntryRec where
  weight : ℚ
  ema_at_signal : Option ℚ
  signal_date : ℕ
  quadrants : List Quadrant
  atr : Option ℚ
  deriving DecidableEq, Repr

/-- The metadata block written alongside the entries. -/
structure Metadata where
  signal_date : ℕ
  top_quadrants : List Quadrant
  total_positions : ℕ
  total_leverage : ℚ
  deriving DecidableEq, Repr

/-- The signals dict produced by `SignalGenerator.generate_signals` as far as
`add_pending_entries` reads it. -/
structure Signals (T : Type) where
  target_weights : List (T × ℚ)
  top_quadrants : List Quadrant
  total_leverage : ℚ
  atr_data : List (T × ℚ)

/-- `self.pending_orders`: the persisted manager state. -/
structure ManagerState (T : Type) where
  entries : List (T × PendingEntryRec)
  metadata : Metadata

variable {T : Type} [DecidableEq T]

/-- `_get_ticker_quadrants` (source lines 246-252) always returns `[]`. -/
def get_ticker_quadrants (_t : T) (_signals : Signals T) : List Quadrant := []

/-- `add_pending_entries`: build `new_entries` from the tickers with strictly
positive target weight and *replace* the stored entries dict with it,
refreshing the metadata. -/
def add_pending_entries (st : ManagerState T) (signals : Signals T)
    (current_ema_data : T → Option ℚ) (today : ℕ) : ManagerState T :=
  { entries := signals.target_weights.filterMap fun p =>
      if 0 < p.2 then
        some (p.1,
          { weight := p.2
          , ema_at_signal := current_ema_data p.1
          , signal_date := today
          , quadrants := get_ticker_quadrants p.1 signals
          , atr := signals.atr_data.lookup p.1 })
      else none
  , metadata :=
      { signal_date := today
      , top_quadrants := signals.top_quadrants
      , total_positions :=
          (signals.target_weights.filterMap fun p =>
            if 0 < p.2 then some p.1 else none).length
      , total_leverage := signals.total_leverage } }

/-- A confirmed entry as returned by `confirm_and_get_entries`. -/
structure ConfirmedEntry where
  entry : PendingEntryRec
  confirmed_price : ℚ
  confirmed_ema : ℚ
  confirmation_date : ℕ
  deriving DecidableEq, Repr

/-- `confirm_and_get_entries`: each pending entry is confirmed exactly when
both the current price and the current EMA are available and
`current_price > current_ema`; entries with missing data or price at/below
the EMA are rejected.  The pending dict is cleared afterwards
(`self.pending_orders['entries'] = {}`). -/
def confirm_and_get_entries (st : ManagerState T)
    (priceAt emaAt : T → Option ℚ) (today : ℕ) :
    List (T × ConfirmedEntry) × ManagerState T :=
  (st.entries.filterMap fun pe =>
      match priceAt pe.1, emaAt pe.1 with
      | some p, some m =>
          if m < p then
            some (pe.1,
              { entry := pe.2
              , confirmed_price := p
              , confirmed_ema := m
              , confirmation_date := today })
          else none
      | _, _ => none,
   { st with entries := [] })

end PO

/-!
## Backtest-side confirmation (quad_portfolio_backtest_ENTRY_LAG_CURRENT.py)

`run_backtest` builds `today_ema_status` — an entry `price > ema` exists for a
ticker exactly when both values are non-NaN — and confirms a pending entry
when `ticker in today_ema_status and today_ema_status[ticker]`.
-/

namespace Cur

variable {T : Type} [DecidableEq T]

/-- The `today_ema_status` (or `yesterday_ema_status`) dict built from a
per-ticker price/EMA snapshot: present iff both values are, holding
`price > ema`. -/
def ema_status_of (priceAt emaAt : T → Option ℚ) (t : T) : Option Bool :=
  match priceAt t, emaAt t with
  | some p, some m => some (decide (m < p))
  | _, _ => none

/-- The confirmation loop over `pending_entries`
(`if ticker in today_ema_status and today_ema_status[ticker]`): keep exactly
the pending `(ticker, weight)` pairs whose status is present and true. -/
def process_pending_confirmations (status : T → Option Bool)
    (pending : List (T × ℚ)) : List (T × ℚ) :=
  pending.filter fun p => (status p.1).getD false

end Cur

namespace PO

variable {T : Type} [DecidableEq T]

/-- **C3.** Backtest lagged confirmation and the live two-phase confirmation
agree: on the same pending snapshot and the same per-ticker price/EMA data,
`confirm_and_get_entries` returns exactly the confirmed `(ticker, weight)`
pairs that the backtest loop keeps, and the per-ticker confirm/reject gate of
both paths is `price` and `ema` present with `price > ema`. -/
theorem backtest_live_confirmation_equiv (st : ManagerState T)
    (priceAt emaAt : T → Option ℚ) (today : ℕ) :
    ((confirm_and_get_entries st priceAt emaAt today).1.map
        fun p => (p.1, p.2.entry.weight))
      = Cur.process_pending_confirmations (Cur.ema_status_of priceAt emaAt)
          (st.entries.map fun p => (p.1, p.2.weight)) ∧
    (∀ t : T, ((Cur.ema_status_of priceAt emaAt t).getD false = true
      ↔ ∃ p m : ℚ, priceAt t = some p ∧ emaAt t = some m ∧ m < p)) := by
  constructor
  · unfold confirm_and_get_entries Cur.process_pending_confirmations
    induction st.entries with
    | nil => rfl
    | cons e l ih =>
        simp only [List.filterMap_cons, List.map_cons, List.filter_cons]
        rcases hp : priceAt e.1 with _ | p <;> rcases hm : emaAt e.1 with _ | m
        · simpa [Cur.ema_status_of, hp, hm] using ih
        · simpa [Cur.ema_status_of, hp, hm] using ih
        · simpa [Cur.ema_status_of, hp, hm] using ih
        · by_cases hlt : m < p
          · simpa [Cur.ema_status_of, hp, hm, hlt] using ih
          · simpa [Cur.ema_status_of, hp, hm, hlt] using ih
  · intro t
    unfold Cur.ema_status_of
    rcases hp : priceAt t with _ | p <;> rcases hm : emaAt t with _ | m <;>
      simp [hp, hm]

/-- **C6.** The confirmation phase is a function of the pending-entry
snapshot and the market data alone: two manager states holding the same
entries snapshot produce the same confirmed list, and after a completed
confirmation run the entries are cleared, so a rerun on the *resulting*
state confirms nothing. -/
theorem confirmation_idempotent (st1 st2 : ManagerState T)
    (priceAt emaAt : T → Option ℚ) (d1 d2 : ℕ)
    (h : st1.entries = st2.entries) :
    (confirm_and_get_entries st1 priceAt emaAt d1).1
      = (confirm_and_get_entries st2 priceAt emaAt d1).1 ∧
    (confirm_and_get_entries
        (confirm_and_get_entries st1 priceAt emaAt d1).2 priceAt emaAt d2).1
      = [] := by
  constructor
  · unfold confirm_and_get_entries
    rw [h]
  · rfl

lemma lookup_filterMap_entries (l : List (T × ℚ)) (f : T × ℚ → PendingEntryRec)
    (hnd : (l.map Prod.fst).Nodup) (t : T) (w : ℚ)
    (hmem : (t, w) ∈ l) (h0 : 0 < w) :
    ((l.filterMap fun p => if 0 < p.2 then some (p.1, f p) else none).lookup t)
      = some (f (t, w)) := by
  induction l with
  | nil => cases hmem
  | cons x xs ih =>
      simp only [List.map_cons, List.nodup_cons] at hnd
      rcases List.mem_cons.mp hmem with he | hmem'
      · rw [List.filterMap_cons, ← he, if_pos h0]
        simp [List.lookup]
      · have hx : ¬ t = x.1 := by
          intro hxe
          exact hnd.1 (hxe ▸ (List.mem_map.mpr ⟨(t, w), hmem', rfl⟩))
        rw [List.filterMap_cons]
        by_cases hx0 : 0 < x.2
        · rw [if_pos hx0]
          have hb : (t == x.1) = false := by simpa using hx
          simp only [List.lookup, hb]
          exact ih hnd.2 hmem'
        · rw [if_neg hx0]
          exact ih hnd.2 hmem'

/-- **C10.** After `add_pending_entries`, the stored entries dict contains
exactly the tickers with strictly positive target weight in the signals —
each recorded with that weight, the current signal date, the EMA at signal
and the ATR looked up from the signals — and the result does not depend on
the previously stored entries at all (any pending entry from an earlier
signal run, confirmed or not, is gone). -/
theorem add_pending_entries_spec (st : ManagerState T) (signals : Signals T)
    (ema : T → Option ℚ) (today : ℕ)
    (hnd : (signals.target_weights.map Prod.fst).Nodup) :
    (∀ t : T, t ∈ ((add_pending_entries st signals ema today).entries.map Prod.fst)
      ↔ ∃ w : ℚ, (t, w) ∈ signals.target_weights ∧ 0 < w) ∧
    (∀ (t : T) (w : ℚ), (t, w) ∈ signals.target_weights → 0 < w →
      ((add_pending_entries st signals ema today).entries.lookup t
        = some { weight := w, ema_at_signal := ema t, signal_date := today,
                 quadrants := [], atr := signals.atr_data.lookup t })) ∧
    (∀ st' : ManagerState T,
      (add_pending_entries st' signals ema today).entries
        = (add_pending_entries st signals ema today).entries) := by
  refine ⟨?_, ?_, fun st' => rfl⟩
  · intro t
    constructor
    · intro ht
      rcases List.mem_map.mp ht with ⟨p, hp, hpe⟩
      rcases List.mem_filterMap.mp hp with ⟨q, hq, hqe⟩
      by_cases h0 : 0 < q.2
      · rw [if_pos h0] at hqe
        have h1 := Option.some_inj.mp hqe
        have h2 : q.1 = t := by rw [← hpe, ← h1]
        refine ⟨q.2, ?_, h0⟩
        have h3 : (t, q.2) = q := by
          rw [← h2]
        rw [h3]
        exact hq
      · rw [if_neg h0] at hqe
        cases hqe
    · rintro ⟨w, hmem, h0⟩
      refine List.mem_map.mpr ⟨(t, PendingEntryRec.mk w (ema t) today
        (get_ticker_quadrants t signals) (signals.atr_data.lookup t)), ?_, rfl⟩
      refine List.mem_filterMap.mpr ⟨(t, w), hmem, ?_⟩
      rw [if_pos h0]
  · intro t w hmem h0
    exact lookup_filterMap_entries signals.target_weights _ hnd t w hmem h0

end PO

/-- Concrete signals dict for the C10 witness: ticker `1` has weight `0` and
must not be stored as a pending entry. -/
def signalsW : PO.Signals ℕ :=
  { target_weights := [(0, 1 / 2), (1, 0), (2, 3 / 4)]
  , top_quadrants := [Quadrant.Q1, Quadrant.Q2]
  , total_leverage := 5 / 4
  , atr_data := [(0, 2)] }

/-- A stale pending entry left over from an earlier signal run. -/
def pendW : PO.PendingEntryRec :=
  { weight := 1, ema_at_signal := none, signal_date := 0,
    quadrants := [], atr := none }

/-- Manager state holding the stale entry. -/
def stW : PO.ManagerState ℕ :=
  { entries := [(9, pendW)]
  , metadata := { signal_date := 0, top_quadrants := [], total_positions := 1,
                  total_leverage := 1 } }

/-- Witness for C10: ticker `0` (weight `1/2`) is stored with today's date and
its ATR; ticker `1` (weight `0`) is absent. -/
theorem add_pending_entries_spec_witness :
    ((PO.add_pending_entries stW signalsW (fun _ => some 8) 7).entries.lookup 0
      = some { weight := 1 / 2, ema_at_signal := some 8, signal_date := 7,
               quadrants := [], atr := signalsW.atr_data.lookup 0 }) ∧
    (1 : ℕ) ∉ ((PO.add_pending_entries stW signalsW (fun _ => some 8) 7).entries.map
        Prod.fst) := by
  have h := PO.add_pending_entries_spec stW signalsW (fun _ => some 8) 7 (by decide)
  refine ⟨h.2.1 0 (1 / 2) (by simp [signalsW]) (by norm_num), ?_⟩
  intro hmem
  rcases (h.1 1).mp hmem with ⟨w, hw, h0⟩
  simp [signalsW] at hw
  rw [hw] at h0
  exact lt_irrefl 0 h0

/-- A second manager state with the same entries but different metadata, for
the C6 witness. -/
def stW2 : PO.ManagerState ℕ :=
  { entries := [(9, pendW)]
  , metadata := { signal_date := 3, top_quadrants := [Quadrant.Q4],
                  total_positions := 4, total_leverage := 0 } }

/-- Witness for C6: the two states share the entries snapshot, so the
confirmation output coincides, and a rerun on the cleared state is empty. -/
theorem confirmation_idempotent_witness :
    (PO.confirm_and_get_entries stW (fun _ => some 10) (fun _ => some 8) 5).1
      = (PO.confirm_and_get_entries stW2 (fun _ => some 10) (fun _ => some 8) 5).1 ∧
    (PO.confirm_and_get_entries
        (PO.confirm_and_get_entries stW (fun _ => some 10) (fun _ => some 8) 5).2
        (fun _ => some 10) (fun _ => some 8) 6).1 = [] :=
  PO.confirmation_idempotent stW stW2 (fun _ => some 10) (fun _ => some 8) 5 6 rfl

/-!
## `MonteCarloBacktest._bootstrap_block_returns` (src/monte_carlo_backtest.py)

The return series is a list of rationals; `np.random.randint(0, len(blocks))`
is modelled as an arbitrary stream of naturals reduced modulo the number of
blocks, so every theorem holds for every realisation of the RNG.
-/

namespace MC

/-- The block decomposition: `n // block_size` full slices
`returns[i*B : i*B+B]` followed by the trailing `returns[-(n % B):]` slice
when `n % B > 0`. -/
def makeBlocks (rs : List ℚ) (B : ℕ) : List (List ℚ) :=
  ((List.range (rs.length / B)).map fun i => ((rs.drop (i * B)).take B))
    ++ (if rs.length % B > 0 then [rs.drop (rs.length - rs.length % B)] else [])

/-- The `while len(bootstrapped) < n` loop: repeatedly extend by a randomly
chosen block; `fuel` bounds the iterations (the source loop terminates
because every block is nonempty). -/
def sampleGo (blocks : List (List ℚ)) (choice : ℕ → ℕ) (n : ℕ) :
    ℕ → ℕ → List ℚ → List ℚ
  | 0, _, acc => acc
  | fuel + 1, k, acc =>
      if acc.length < n then
        sampleGo blocks choice n fuel (k + 1)
          (acc ++ blocks.getD (choice k % blocks.length) [])
      else acc

/-- `_bootstrap_block_returns`: sample whole blocks with replacement until at
least `n` values are collected, then trim to exactly `n`. -/
def bootstrap_block_returns (rs : List ℚ) (B : ℕ) (choice : ℕ → ℕ) : List ℚ :=
  (sampleGo (makeBlocks rs B) choice rs.length rs.length 0 []).take rs.length

lemma makeBlocks_ne_nil (rs : List ℚ) (B : ℕ) (hrs : rs ≠ []) (hB : 1 ≤ B) :
    makeBlocks rs B ≠ [] := by
  unfold makeBlocks
  have hn : 0 < rs.length := List.length_pos.mpr hrs
  by_cases hr : rs.length % B > 0
  · rw [if_pos hr]
    simp
  · rw [if_neg hr]
    push_neg at hr
    have hr0 : rs.length % B = 0 := Nat.le_zero.mp hr
    have hBle : B ≤ rs.length := by
      by_contra hlt
      push_neg at hlt
      rw [Nat.mod_eq_of_lt hlt] at hr0
      omega
    have hq : 0 < rs.length / B := Nat.div_pos hBle (by omega)
    simp only [List.append_nil]
    intro h
    rw [List.map_eq_nil_iff, List.range_eq_nil] at h
    omega

lemma makeBlocks_mem_ne_nil (rs : List ℚ) (B : ℕ) (hB : 1 ≤ B) :
    ∀ b ∈ makeBlocks rs B, b ≠ [] := by
  intro b hb
  unfold makeBlocks at hb
  rcases List.mem_append.mp hb with h1 | h1
  · rcases List.mem_map.mp h1 with ⟨i, hi, hie⟩
    rw [List.mem_range] at hi
    intro hnil
    have hiB : i * B + B ≤ rs.length := by
      have h2 : i + 1 ≤ rs.length / B := hi
      have h3 : (i + 1) * B ≤ (rs.length / B) * B := Nat.mul_le_mul_right B h2
      have h4 : (rs.length / B) * B ≤ rs.length := Nat.div_mul_le_self _ _
      calc i * B + B = (i + 1) * B := by ring
        _ ≤ rs.length := le_trans h3 h4
    have hlen : ((rs.drop (i * B)).take B).length = min B (rs.length - i * B) := by
      simp [List.length_take, List.length_drop]
    rw [hie, hnil] at hlen
    simp only [List.length_nil] at hlen
    have h5 : 0 < min B (rs.length - i * B) := lt_min (by omega) (by omega)
    exact (ne_of_gt h5) hlen.symm
  · by_cases hr : rs.length % B > 0
    · rw [if_pos hr, List.mem_singleton] at h1
      intro hnil
      rw [h1] at hnil
      have hd : (rs.drop (rs.length - rs.length % B)).length
          = rs.length - (rs.length - rs.length % B) := List.length_drop _ _
      rw [hnil] at hd
      simp only [List.length_nil] at hd
      have hmle : rs.length % B ≤ rs.length := Nat.mod_le _ _
      omega
    · rw [if_neg hr] at h1
      cases h1

lemma sampleGo_length (blocks : List (List ℚ)) (choice : ℕ → ℕ) (n : ℕ)
    (hne : blocks ≠ []) (hblocks : ∀ b ∈ blocks, b ≠ []) :
    ∀ (fuel k : ℕ) (acc : List ℚ), n ≤ acc.length + fuel →
      n ≤ (sampleGo blocks choice n fuel k acc).length := by
  intro fuel
  induction fuel with
  | zero =>
      intro k acc h
      rw [sampleGo]
      omega
  | succ f ih =>
      intro k acc h
      rw [sampleGo]
      by_cases hlt : acc.length < n
      · rw [if_pos hlt]
        apply ih
        have hidx : choice k % blocks.length < blocks.length :=
          Nat.mod_lt _ (List.length_pos.mpr hne)
        have hb : blocks.getD (choice k % blocks.length) [] ≠ [] := by
          apply hblocks
          rw [List.getD_eq_getElem blocks [] hidx]
          exact List.getElem_mem hidx
        have hb1 : 1 ≤ (blocks.getD (choice k % blocks.length) []).length :=
          List.length_pos.mpr hb
        rw [List.length_append]
        omega
      · rw [if_neg hlt]
        omega

/-- **C9.** For every non-empty return series, every block size `B ≥ 1` and
every realisation of the random block choices, the bootstrapped series has
exactly the length of the original series. -/
theorem bootstrap_length_eq (rs : List ℚ) (B : ℕ) (choice : ℕ → ℕ)
    (hrs : rs ≠ []) (hB : 1 ≤ B) :
    (bootstrap_block_returns rs B choice).length = rs.length := by
  unfold bootstrap_block_returns
  rw [List.length_take]
  have h := sampleGo_length (makeBlocks rs B) choice rs.length
    (makeBlocks_ne_nil rs B hrs hB) (makeBlocks_mem_ne_nil rs B hB)
    rs.length 0 [] (by simp)
  omega

end MC

/-- Witness for C9: a five-element series resampled in blocks of two keeps
length five (with the identity RNG stream). -/
theorem bootstrap_length_eq_witness :
    (MC.bootstrap_block_returns [1, 2, 3, 4, 5] 2 (fun k => k)).length = 5 := by
  have h := MC.bootstrap_length_eq [1, 2, 3, 4, 5] 2 (fun k => k)
    (by decide) (by decide)
  simpa using h

/-!
## ATR stop levels (src/initialize_strategy.py and spec §4.6)

`initialize_strategy.py` computes the stop as
`stop_price = entry_price - (atr * 2.0)` (both in
`get_current_positions_with_stops` and `_find_entry_info`).  The tracking of
that stop over the life of a position lives in `quad_portfolio_backtest.py`
(`QuadrantPortfolioBacktest` with `atr_stop_loss=2.0, atr_period=14`), which
all of `initialize_strategy.py`, `run_production_backtest.py`,
`live_trader.py`, `monte_carlo_backtest.py` import but which is not among the
repository sources; that part is modelled from the spec below.
-/

namespace Stops

/-- The stop formula of `get_current_positions_with_stops` (line 101) and
`_find_entry_info` (line 158): `entry_price - (atr * 2.0)`. -/
def stop_of_entry (entry_price atr : ℚ) : ℚ := entry_price - atr * 2

/-- Modelled from the spec: the position record tracked by the ATR stop logic
of `quad_portfolio_backtest.py` (absent from src/).  Spec §3 `Position`:
`(ticker, weight, entry_price, entry_date, stop_price, atr_at_entry)`;
`stop_price` is fixed at entry. -/
structure Position where
  entry_price : ℚ
  entry_date : ℕ
  atr_at_entry : ℚ
  stop_price : ℚ
  weight : ℚ
  deriving DecidableEq, Repr

/-- Modelled from the spec: a confirmed entry opens a position with the
static stop `entry_price − k × ATR_at_entry` (spec §4.6; production
configuration `k = atr_stop_loss = 2.0` over a 14-day ATR window). -/
def openPosition (k : ℚ) (date : ℕ) (entry_price atr weight : ℚ) : Position :=
  { entry_price := entry_price
  , entry_date := date
  , atr_at_entry := atr
  , stop_price := entry_price - k * atr
  , weight := weight }

/-- Modelled from the spec: the per-day events that can affect an open
position — carry it forward (possibly adjusting the weight on a rebalance),
or exit on quadrant rotation, trend-filter failure, or a stop breach. -/
inductive DayEvent
  | hold (newWeight : Option ℚ)
  | exitRotation
  | exitTrendFilter
  | exitStopBreach
  deriving DecidableEq, Repr

/-- Modelled from the spec: one tracking day.  While the position stays open
only the weight can change; every exit closes the position.  The stop price
is never recomputed or trailed. -/
def stepPosition (pos : Position) : DayEvent → Option Position
  | DayEvent.hold none => some pos
  | DayEvent.hold (some w) => some { pos with weight := w }
  | _ => none

/-- Modelled from the spec: fold a day-event trace over an open position;
`none` means the position closed during the trace. -/
def runDays (pos : Position) : List DayEvent → Option Position
  | [] => some pos
  | e :: es =>
      match stepPosition pos e with
      | some p2 => runDays p2 es
      | none => none

lemma runDays_preserves (pos : Position) (evs : List DayEvent) (p2 : Position)
    (h : runDays pos evs = some p2) :
    p2.stop_price = pos.stop_price ∧ p2.entry_price = pos.entry_price ∧
      p2.atr_at_entry = pos.atr_at_entry := by
  induction evs generalizing pos with
  | nil =>
      rw [runDays] at h
      rw [← Option.some_inj.mp h]
      exact ⟨rfl, rfl, rfl⟩
  | cons e es ih =>
      cases e with
      | hold nw =>
          cases nw with
          | none => exact ih pos h
          | some w => exact ih { pos with weight := w } h
      | exitRotation => cases h
      | exitTrendFilter => cases h
      | exitStopBreach => cases h

/-- **C5.** A confirmed entry sets `stop_price = entry_price − k × ATR`;
with the production multiplier `k = 2` this is exactly the formula of
`initialize_strategy.py`; and along any sequence of days on which the
position stays open the stop (and the recorded entry data it derives from)
never changes. -/
theorem stop_static_and_formula (k : ℚ) (date : ℕ) (e atr w : ℚ)
    (evs : List DayEvent) (p2 : Position)
    (h : runDays (openPosition k date e atr w) evs = some p2) :
    p2.stop_price = e - k * atr ∧
    p2.entry_price = e ∧
    p2.atr_at_entry = atr ∧
    (openPosition 2 date e atr w).stop_price = stop_of_entry e atr := by
  rcases runDays_preserves _ evs p2 h with ⟨h1, h2, h3⟩
  refine ⟨h1, h2, h3, ?_⟩
  unfold openPosition stop_of_entry
  ring

end Stops

/-- Witness for C5: the concrete position surviving two held days keeps its
stop `100 − 2 × 3`. -/
theorem stop_static_and_formula_witness :
    Stops.runDays (Stops.openPosition 2 0 100 3 1)
        [Stops.DayEvent.hold none, Stops.DayEvent.hold (some 2)]
      = some { entry_price := 100, entry_date := 0, atr_at_entry := 3,
               stop_price := 100 - 2 * 3, weight := 2 } ∧
    ({ entry_price := 100, entry_date := 0, atr_at_entry := 3,
       stop_price := 100 - 2 * 3, weight := 2 } : Stops.Position).stop_price
      = 100 - 2 * 3 := by
  have hrun : Stops.runDays (Stops.openPosition 2 0 100 3 1)
        [Stops.DayEvent.hold none, Stops.DayEvent.hold (some 2)]
      = some { entry_price := 100, entry_date := 0, atr_at_entry := 3,
               stop_price := 100 - 2 * 3, weight := 2 } := rfl
  have h := Stops.stop_static_and_formula 2 0 100 3 1
    [Stops.DayEvent.hold none, Stops.DayEvent.hold (some 2)] _ hrun
  exact ⟨hrun, h.1⟩

/-!
## Derived market tables shared by the backtest variants

`fetch_data` produces a total price frame (`ffill().bfill()`); the EMA frame
and the rolling-volatility frame are derived from it, and every backtest
variant consumes `price_data`, `ema_data`, `volatility_data` and the
`target_weights` / `top_quads` tables built from them.  The rolling standard
deviation is the opaque kernel `stdFn` applied to the window of daily
returns it reads.
-/

namespace Mkt

/-- Static configuration of a backtest variant. -/
structure Config (T : Type) where
  columns : List T
  alloc : Quadrant → List T
  indicators : Quadrant → List T
  momentum_days : ℕ
  ema_period : ℕ
  vol_lookback : ℕ
  stdFn : List ℚ → ℚ

variable {T : Type} [DecidableEq T]

/-- `ewm(span=ema_period, adjust=False).mean()` of one price column:
`ema 0 = p 0` and `ema (t+1) = α·p(t+1) + (1−α)·ema t` with
`α = 2 / (span + 1)`. -/
def ema (span : ℕ) (p : ℕ → ℚ) : ℕ → ℚ
  | 0 => p 0
  | t + 1 =>
      (2 / ((span : ℚ) + 1)) * p (t + 1)
        + (1 - 2 / ((span : ℚ) + 1)) * ema span p t

/-- `pct_change()` of one price column (row `0` is `NaN` in the source and
never consumed: the volatility window only starts at row `1`). -/
def dailyRet (p : ℕ → ℚ) (t : ℕ) : ℚ := p t / p (t - 1) - 1

/-- `returns.rolling(vol_lookback).std() * sqrt(252)` of one column at day
`t`: defined once `t ≥ vol_lookback` (then the window
`t − vol_lookback + 1 … t` holds only non-`NaN` returns), as the opaque
kernel applied to that window. -/
def vol (cfg : Config T) (p : ℕ → ℚ) (t : ℕ) : Option ℚ :=
  if cfg.vol_lookback ≤ t then
    some (cfg.stdFn ((List.range cfg.vol_lookback).map
      fun j => dailyRet p (t - cfg.vol_lookback + 1 + j)))
  else none

/-- The `*_ema_status` dicts: an entry `price > ema` exists for every frame
column (prices are total after the fill). -/
def emaStatus (cfg : Config T) (prices : ℕ → T → ℚ) (t : ℕ) (tk : T) :
    Option Bool :=
  if tk ∈ cfg.columns then
    some (if ema cfg.ema_period (fun u => prices u tk) t < prices t tk
          then true else false)
  else none

/-- `quad_vols` for a date in the entry-lag variants (which leave the
rolling volatility unfilled): quadrant tickers present in the frame with a
defined, strictly positive volatility. -/
def quadVolsAt (cfg : Config T) (prices : ℕ → T → ℚ) (t : ℕ) (q : Quadrant) :
    List (T × ℚ) :=
  ((cfg.alloc q).filter (fun tk => tk ∈ cfg.columns)).filterMap fun tk =>
    match vol cfg (fun u => prices u tk) t with
    | some v => if 0 < v then some (tk, v) else none
    | none => none

/-- The volweight variant additionally runs
`self.volatility_data = self.volatility_data.ffill().bfill()` (line 178).
A volatility column holds `NaN` exactly on the rows `0 … vol_lookback − 1`
before the window first fills; `ffill` leaves those leading `NaN`s in place
and `bfill` then replaces them with the first defined value below — the
window ending at row `vol_lookback`, computed from rows up to and including
day `vol_lookback`, i.e. possibly *future* rows.  The filled column is
total: row `t` holds the window ending at `max t vol_lookback`. -/
def volFilled (cfg : Config T) (p : ℕ → ℚ) (t : ℕ) : ℚ :=
  cfg.stdFn ((List.range cfg.vol_lookback).map
    fun j => dailyRet p (max t cfg.vol_lookback - cfg.vol_lookback + 1 + j))

/-- `quad_vols` for a date in the volweight variant: after the fill the
`pd.notna(vol)` guard always passes, leaving only `vol > 0`. -/
def quadVolsFilledAt (cfg : Config T) (prices : ℕ → T → ℚ) (t : ℕ)
    (q : Quadrant) : List (T × ℚ) :=
  ((cfg.alloc q).filter (fun tk => tk ∈ cfg.columns)).filterMap fun tk =>
    if 0 < volFilled cfg (fun u => prices u tk) t then
      some (tk, volFilled cfg (fun u => prices u tk) t)
    else none

/-- The EMA-crossover scan of the rebalance trigger:
`for ticker in current_ema_status: if ticker in prev_ema_status: ...`. -/
def crossover (cfg : Config T) (cur prev : T → Option Bool) : Bool :=
  cfg.columns.any fun tk =>
    match cur tk, prev tk with
    | some a, some b => a != b
    | _, _ => false

end Mkt

/-!
## `quad_portfolio_backtest_volweight.py`

Inverse-volatility weighting over the *filled* volatility table
(`ffill().bfill()`, line 178), quadrant budget `1.0` each, quadrant scores
over `QUAD_INDICATORS` in percent, and a purely `T−1`-lagged simulation:
on day `i` the positions rebalance (if triggered) to
`target_weights.loc[index[i-1]]` and only then earn day `i`'s return.
The fill is a look-ahead channel: rows before `vol_lookback` hold a
window computed from later prices, so the no-look-ahead result below
requires `vol_lookback ≤ momentum_days` (the constructor defaults,
`vol_lookback = 60 > momentum_days = 50`, violate it).
-/

namespace VW

variable {T : Type} [DecidableEq T]

/-- `calculate_quad_scores`: average `pct_change(momentum_days) * 100` over
the quadrant's indicator tickers present in the frame (`0` when there are
none). -/
def quadScore (cfg : Mkt.Config T) (prices : ℕ → T → ℚ) (q : Quadrant)
    (t : ℕ) : ℚ :=
  if ((cfg.indicators q).filter (fun tk => tk ∈ cfg.columns)) = [] then 0
  else
    (((cfg.indicators q).filter (fun tk => tk ∈ cfg.columns)).map
        fun tk => (prices t tk / prices (t - cfg.momentum_days) tk - 1) * 100).sum
      / ((cfg.indicators q).filter (fun tk => tk ∈ cfg.columns)).length

/-- `determine_top_quads` on the score row of day `t`. -/
def topQuadsAt (cfg : Mkt.Config T) (prices : ℕ → T → ℚ) (t : ℕ) :
    Quadrant × Quadrant :=
  determine_top_quads fun q => quadScore cfg prices q t

/-- `calculate_target_weights` inner step: inverse-volatility weights over
the *filled* volatility table, normalised to the quadrant budget `1.0`. -/
def vol_weights (cfg : Mkt.Config T) (prices : ℕ → T → ℚ) (t : ℕ)
    (q : Quadrant) : List (T × ℚ) :=
  (Mkt.quadVolsFilledAt cfg prices t q).map fun p =>
    (p.1, (1 / p.2) / ((Mkt.quadVolsFilledAt cfg prices t q).map fun r => 1 / r.2).sum * 1)

/-- The EMA trend filter of `calculate_target_weights` at day `t`. -/
def emaPassAt (cfg : Mkt.Config T) (prices : ℕ → T → ℚ) (t : ℕ) (tk : T) :
    Bool :=
  (Mkt.emaStatus cfg prices t tk).getD false

/-- `final_weights` of one date: both selected quadrants' filtered
volatility weights accumulated into the dict. -/
def final_weights (cfg : Mkt.Config T) (prices : ℕ → T → ℚ) (t : ℕ) :
    List (T × ℚ) :=
  ([(topQuadsAt cfg prices t).1, (topQuadsAt cfg prices t).2]).foldl
    (fun m q => (vol_weights cfg prices t q).foldl
      (fun m2 p => if emaPassAt cfg prices t p.1 then SG.upsert m2 p.1 p.2 else m2) m)
    []

/-- The `target_weights` row of day `t` as a total function (`0` outside the
dict). -/
def target_weight (cfg : Mkt.Config T) (prices : ℕ → T → ℚ) (t : ℕ) (tk : T) :
    ℚ :=
  ((final_weights cfg prices t).lookup tk).getD 0

/-- The mutable state of the `run_backtest` day loop. -/
structure SimState (T : Type) where
  positions : T → ℚ
  prev_top : Option (Quadrant × Quadrant)
  prev_ema : T → Option Bool

/-- The rebalance trigger: first day, top-pair change, or an EMA crossover
against the previous day's status. -/
def should_rebalance (cfg : Mkt.Config T) (s : SimState T)
    (ctq : Quadrant × Quadrant) (ces : T → Option Bool) : Bool :=
  match s.prev_top with
  | none => true
  | some pt => (if ctq = pt then false else true) || Mkt.crossover cfg ces s.prev_ema

/-- One iteration of the day loop at day `d`: all signal data is read at
`target_date = d − 1`. -/
def dayStep (cfg : Mkt.Config T) (prices : ℕ → T → ℚ) (d : ℕ)
    (s : SimState T) : SimState T :=
  { positions :=
      if should_rebalance cfg s (topQuadsAt cfg prices (d - 1))
          (fun tk => Mkt.emaStatus cfg prices (d - 1) tk) then
        fun tk => target_weight cfg prices (d - 1) tk
      else s.positions
  , prev_top := some (topQuadsAt cfg prices (d - 1))
  , prev_ema := fun tk => Mkt.emaStatus cfg prices (d - 1) tk }

/-- The state after `i` iterations; iteration `i ≥ 1` handles day
`warmup + i` (with `warmup = momentum_days`), and its `positions` are the
weights that earn day `warmup + i`'s return. -/
def stateAt (cfg : Mkt.Config T) (prices : ℕ → T → ℚ) : ℕ → SimState T
  | 0 => ⟨fun _ => 0, none, fun _ => none⟩
  | i + 1 => dayStep cfg prices (cfg.momentum_days + (i + 1)) (stateAt cfg prices i)

end VW

/-!
## Prefix-dependence (no look-ahead) of the volweight simulation

Every derived quantity read on backtest day `d` is computed at
`target_date = d − 1`; the lemmas below show each table at day `t` reads
prices only at days `≤ t` — for the *filled* volatility table only on rows
`t ≥ vol_lookback`, which is every row the simulation reads exactly when
`vol_lookback ≤ momentum_days` — and conclude that under that hypothesis
the positions earning day `d`'s return are a function of the prices
strictly before `d`.
-/

lemma map_congr_mem {α β : Type} (l : List α) (f g : α → β)
    (h : ∀ a ∈ l, f a = g a) : l.map f = l.map g := by
  induction l with
  | nil => rfl
  | cons x xs ih =>
      simp only [List.map_cons]
      rw [h x (List.mem_cons_self _ _), ih fun a ha => h a (List.mem_cons.mpr (Or.inr ha))]

lemma filterMap_congr_mem {α β : Type} (l : List α) (f g : α → Option β)
    (h : ∀ a ∈ l, f a = g a) : l.filterMap f = l.filterMap g := by
  induction l with
  | nil => rfl
  | cons x xs ih =>
      simp only [List.filterMap_cons]
      rw [h x (List.mem_cons_self _ _), ih fun a ha => h a (List.mem_cons.mpr (Or.inr ha))]

namespace Mkt

variable {T : Type} [DecidableEq T]

lemma ema_congr (span : ℕ) (f g : ℕ → ℚ) (t : ℕ) (h : ∀ u ≤ t, f u = g u) :
    ema span f t = ema span g t := by
  induction t with
  | zero =>
      rw [ema, ema, h 0 le_rfl]
  | succ n ih =>
      rw [ema, ema, h (n + 1) le_rfl,
        ih fun u hu => h u (le_trans hu (Nat.le_succ n))]

lemma dailyRet_congr (f g : ℕ → ℚ) (t : ℕ) (h : ∀ u ≤ t, f u = g u) :
    dailyRet f t = dailyRet g t := by
  unfold dailyRet
  rw [h t le_rfl, h (t - 1) (Nat.sub_le t 1)]

lemma vol_congr (cfg : Config T) (f g : ℕ → ℚ) (t : ℕ)
    (h : ∀ u ≤ t, f u = g u) : vol cfg f t = vol cfg g t := by
  unfold vol
  by_cases hc : cfg.vol_lookback ≤ t
  · rw [if_pos hc, if_pos hc]
    congr 2
    apply map_congr_mem
    intro j hj
    rw [List.mem_range] at hj
    apply dailyRet_congr
    intro u hu
    apply h
    omega
  · rw [if_neg hc, if_neg hc]

lemma emaStatus_congr (cfg : Config T) (p1 p2 : ℕ → T → ℚ) (t : ℕ)
    (h : ∀ u ≤ t, ∀ tk : T, p1 u tk = p2 u tk) (tk : T) :
    emaStatus cfg p1 t tk = emaStatus cfg p2 t tk := by
  unfold emaStatus
  by_cases hm : tk ∈ cfg.columns
  · rw [if_pos hm, if_pos hm, h t le_rfl tk,
      ema_congr cfg.ema_period _ _ t fun u hu => h u hu tk]
  · rw [if_neg hm, if_neg hm]

lemma quadVolsAt_congr (cfg : Config T) (p1 p2 : ℕ → T → ℚ) (t : ℕ)
    (h : ∀ u ≤ t, ∀ tk : T, p1 u tk = p2 u tk) (q : Quadrant) :
    quadVolsAt cfg p1 t q = quadVolsAt cfg p2 t q := by
  unfold quadVolsAt
  apply filterMap_congr_mem
  intro tk _
  rw [vol_congr cfg _ _ t fun u hu => h u hu tk]

/-- The filled volatility at row `t` reads only prices at days `≤ t` once
`t` is at or past the first full window — on earlier rows it does not (the
backfilled value reads days up to `vol_lookback`). -/
lemma volFilled_congr (cfg : Config T) (f g : ℕ → ℚ) (t : ℕ)
    (hw : cfg.vol_lookback ≤ t) (h : ∀ u ≤ t, f u = g u) :
    volFilled cfg f t = volFilled cfg g t := by
  unfold volFilled
  congr 1
  apply map_congr_mem
  intro j hj
  rw [List.mem_range] at hj
  apply dailyRet_congr
  intro u hu
  apply h
  omega

lemma quadVolsFilledAt_congr (cfg : Config T) (p1 p2 : ℕ → T → ℚ) (t : ℕ)
    (hw : cfg.vol_lookback ≤ t)
    (h : ∀ u ≤ t, ∀ tk : T, p1 u tk = p2 u tk) (q : Quadrant) :
    quadVolsFilledAt cfg p1 t q = quadVolsFilledAt cfg p2 t q := by
  unfold quadVolsFilledAt
  apply filterMap_congr_mem
  intro tk _
  rw [volFilled_congr cfg _ _ t hw fun u hu => h u hu tk]

end Mkt

namespace VW

variable {T : Type} [DecidableEq T]

lemma quadScore_congr (cfg : Mkt.Config T) (p1 p2 : ℕ → T → ℚ) (q : Quadrant)
    (t : ℕ) (h : ∀ u ≤ t, ∀ tk : T, p1 u tk = p2 u tk) :
    quadScore cfg p1 q t = quadScore cfg p2 q t := by
  unfold quadScore
  by_cases hc : ((cfg.indicators q).filter (fun tk => tk ∈ cfg.columns)) = []
  · rw [if_pos hc, if_pos hc]
  · rw [if_neg hc, if_neg hc]
    congr 1
    congr 1
    apply map_congr_mem
    intro tk _
    rw [h t le_rfl tk, h (t - cfg.momentum_days) (Nat.sub_le _ _) tk]

lemma topQuadsAt_congr (cfg : Mkt.Config T) (p1 p2 : ℕ → T → ℚ) (t : ℕ)
    (h : ∀ u ≤ t, ∀ tk : T, p1 u tk = p2 u tk) :
    topQuadsAt cfg p1 t = topQuadsAt cfg p2 t := by
  unfold topQuadsAt
  congr 1
  funext q
  exact quadScore_congr cfg p1 p2 q t h

lemma vol_weights_congr (cfg : Mkt.Config T) (p1 p2 : ℕ → T → ℚ) (t : ℕ)
    (hw : cfg.vol_lookback ≤ t)
    (h : ∀ u ≤ t, ∀ tk : T, p1 u tk = p2 u tk) (q : Quadrant) :
    vol_weights cfg p1 t q = vol_weights cfg p2 t q := by
  unfold vol_weights
  rw [Mkt.quadVolsFilledAt_congr cfg p1 p2 t hw h q]

lemma emaPassAt_congr (cfg : Mkt.Config T) (p1 p2 : ℕ → T → ℚ) (t : ℕ)
    (h : ∀ u ≤ t, ∀ tk : T, p1 u tk = p2 u tk) (tk : T) :
    emaPassAt cfg p1 t tk = emaPassAt cfg p2 t tk := by
  unfold emaPassAt
  rw [Mkt.emaStatus_congr cfg p1 p2 t h tk]

lemma final_weights_congr (cfg : Mkt.Config T) (p1 p2 : ℕ → T → ℚ) (t : ℕ)
    (hw : cfg.vol_lookback ≤ t)
    (h : ∀ u ≤ t, ∀ tk : T, p1 u tk = p2 u tk) :
    final_weights cfg p1 t = final_weights cfg p2 t := by
  unfold final_weights
  rw [topQuadsAt_congr cfg p1 p2 t h]
  congr 1
  funext m q
  rw [vol_weights_congr cfg p1 p2 t hw h q]
  congr 1
  funext m2 p
  rw [emaPassAt_congr cfg p1 p2 t h p.1]

lemma target_weight_congr (cfg : Mkt.Config T) (p1 p2 : ℕ → T → ℚ) (t : ℕ)
    (hw : cfg.vol_lookback ≤ t)
    (h : ∀ u ≤ t, ∀ tk : T, p1 u tk = p2 u tk) (tk : T) :
    target_weight cfg p1 t tk = target_weight cfg p2 t tk := by
  unfold target_weight
  rw [final_weights_congr cfg p1 p2 t hw h]

lemma dayStep_congr (cfg : Mkt.Config T) (p1 p2 : ℕ → T → ℚ) (d : ℕ)
    (s : SimState T) (hw : cfg.vol_lookback ≤ d - 1)
    (h : ∀ u ≤ d - 1, ∀ tk : T, p1 u tk = p2 u tk) :
    dayStep cfg p1 d s = dayStep cfg p2 d s := by
  unfold dayStep
  have h1 : topQuadsAt cfg p1 (d - 1) = topQuadsAt cfg p2 (d - 1) :=
    topQuadsAt_congr cfg p1 p2 (d - 1) h
  have h2 : (fun tk : T => Mkt.emaStatus cfg p1 (d - 1) tk)
      = fun tk => Mkt.emaStatus cfg p2 (d - 1) tk :=
    funext fun tk => Mkt.emaStatus_congr cfg p1 p2 (d - 1) h tk
  have h3 : (fun tk : T => target_weight cfg p1 (d - 1) tk)
      = fun tk => target_weight cfg p2 (d - 1) tk :=
    funext fun tk => target_weight_congr cfg p1 p2 (d - 1) hw h tk
  rw [h1, h2, h3]

lemma stateAt_congr (cfg : Mkt.Config T) (p1 p2 : ℕ → T → ℚ) (i : ℕ)
    (hwm : cfg.vol_lookback ≤ cfg.momentum_days)
    (h : ∀ u < cfg.momentum_days + i, ∀ tk : T, p1 u tk = p2 u tk) :
    stateAt cfg p1 i = stateAt cfg p2 i := by
  induction i with
  | zero => rfl
  | succ n ih =>
      rw [stateAt, stateAt]
      rw [ih fun u hu tk => h u (by omega) tk]
      apply dayStep_congr
      · omega
      · intro u hu tk
        apply h
        omega

/-- **C1 (amended, volweight path).** Provided the volatility window is no
longer than the momentum warmup (`vol_lookback ≤ momentum_days`), every
simulated target date lies at or past the row where the volatility window
first fills, so the `ffill().bfill()` of line 178 is the identity on every
cell that is read, and the positions that earn day `warmup + i`'s return
depend only on the prices of days strictly before `warmup + i`: two price
tables agreeing up to day `warmup + i − 1` yield identical positions for
every ticker (quadrant scores, target weights and trend status are all read
at `T − 1`).  With the constructor defaults
(`vol_lookback = 60 > momentum_days = 50`) the hypothesis fails: the
backfilled volatility rows read by the earliest simulated days hold a
window computed from later prices. -/
theorem no_look_ahead_volweight (cfg : Mkt.Config T) (p1 p2 : ℕ → T → ℚ)
    (i : ℕ) (hwm : cfg.vol_lookback ≤ cfg.momentum_days)
    (h : ∀ u : ℕ, u < cfg.momentum_days + i → ∀ tk : T, p1 u tk = p2 u tk) :
    ∀ tk : T, (stateAt cfg p1 i).positions tk = (stateAt cfg p2 i).positions tk := by
  intro tk
  rw [stateAt_congr cfg p1 p2 i hwm h]

end VW

/-!
## `quad_portfolio_backtest_ENTRY_LAG_CURRENT.py`

Direct volatility chasing with asymmetric leverage (`Q1 ↦ 1.5`), quadrant
scores over the *allocation* tickers without percent scaling, and the
pending-entry machinery: macro signals and targets are read at `T − 1`, but
pending entries are confirmed against **today's** EMA status and, once
confirmed, participate in today's return.
-/

namespace Cur

variable {T : Type} [DecidableEq T]

/-- `calculate_quad_scores` of the entry-lag variants: average
`pct_change(momentum_days)` (no percent scaling) over the quadrant's
*allocation* tickers present in the frame.  (A quadrant with no frame ticker
receives no score column in the source; with the shipped configuration every
quadrant has at least one, and it is scored `0` here.) -/
def quadScore (cfg : Mkt.Config T) (prices : ℕ → T → ℚ) (q : Quadrant)
    (t : ℕ) : ℚ :=
  if ((cfg.alloc q).filter (fun tk => tk ∈ cfg.columns)) = [] then 0
  else
    (((cfg.alloc q).filter (fun tk => tk ∈ cfg.columns)).map
        fun tk => prices t tk / prices (t - cfg.momentum_days) tk - 1).sum
      / ((cfg.alloc q).filter (fun tk => tk ∈ cfg.columns)).length

/-- `determine_top_quads` on the score row of day `t`. -/
def topQuadsAt (cfg : Mkt.Config T) (prices : ℕ → T → ℚ) (t : ℕ) :
    Quadrant × Quadrant :=
  determine_top_quads fun q => quadScore cfg prices q t

/-- ASYMMETRIC leverage: `1.5` when the selected quadrant is `Q1`, else
`1.0`. -/
def quad_weight (q : Quadrant) : ℚ := if q = Quadrant.Q1 then 3 / 2 else 1

/-- Direct volatility weights normalised to the quadrant leverage
(`weight = vol / total_vol * quad_weight`). -/
def vol_weights (cfg : Mkt.Config T) (prices : ℕ → T → ℚ) (t : ℕ)
    (q : Quadrant) (lev : ℚ) : List (T × ℚ) :=
  (Mkt.quadVolsAt cfg prices t q).map fun p =>
    (p.1, p.2 / ((Mkt.quadVolsAt cfg prices t q).map Prod.snd).sum * lev)

/-- `final_weights` of one date: both selected quadrants (with their
asymmetric leverage) filtered by the EMA and accumulated into the dict. -/
def final_weights (cfg : Mkt.Config T) (prices : ℕ → T → ℚ) (t : ℕ) :
    List (T × ℚ) :=
  ([((topQuadsAt cfg prices t).1, quad_weight (topQuadsAt cfg prices t).1),
    ((topQuadsAt cfg prices t).2, quad_weight (topQuadsAt cfg prices t).2)]).foldl
    (fun m ql => (vol_weights cfg prices t ql.1 ql.2).foldl
      (fun m2 p => if VW.emaPassAt cfg prices t p.1 then SG.upsert m2 p.1 p.2 else m2)
      m)
    []

/-- The `target_weights` row of day `t` as a total function. -/
def target_weight (cfg : Mkt.Config T) (prices : ℕ → T → ℚ) (t : ℕ) (tk : T) :
    ℚ :=
  ((final_weights cfg prices t).lookup tk).getD 0

/-- The mutable state of the day loop: holdings, the pending-entry dict, and
the change-detection trackers. -/
structure SimState (T : Type) where
  positions : T → ℚ
  pending : T → Option ℚ
  prev_top : Option (Quadrant × Quadrant)
  prev_ema : T → Option Bool

/-- `ticker in status and status[ticker]`. -/
def emaPass (ces : T → Option Bool) (tk : T) : Bool := (ces tk).getD false

/-- `confirmed_entries`: a pending entry confirmed against *today's* EMA
status; every pending entry is removed from the dict in the same loop
whether confirmed or rejected. -/
def confirmedOf (today : T → Option Bool) (pending : T → Option ℚ) (tk : T) :
    Option ℚ :=
  match pending tk with
  | some w => if emaPass today tk then some w else none
  | none => none

/-- `len(confirmed_entries) > 0` (pending entries only ever exist for frame
columns). -/
def anyConfirmed (cfg : Mkt.Config T) (today : T → Option Bool)
    (pending : T → Option ℚ) : Bool :=
  cfg.columns.any fun tk => (confirmedOf today pending tk).isSome

/-- The rebalance trigger of this variant: change detection runs on
*yesterday's* EMA status. -/
def should_rebalance (cfg : Mkt.Config T) (s : SimState T)
    (ctq : Quadrant × Quadrant) (yes : T → Option Bool) : Bool :=
  match s.prev_top with
  | none => true
  | some pt => (if ctq = pt then false else true) || Mkt.crossover cfg yes s.prev_ema

/-- `should_rebalance or len(confirmed_entries) > 0`. -/
def rebalanceRan (cfg : Mkt.Config T) (s : SimState T)
    (ctq : Quadrant × Quadrant) (yes today : T → Option Bool) : Bool :=
  should_rebalance cfg s ctq yes || anyConfirmed cfg today s.pending

/-- Positions right after the confirmed entries are applied. -/
def posAfterConfirm (today : T → Option Bool) (s : SimState T) (tk : T) : ℚ :=
  match confirmedOf today s.pending tk with
  | some w => w
  | none => s.positions tk

/-- The per-day core of `run_backtest` over its day inputs (yesterday's EMA
status for change detection, today's EMA status for confirmation,
yesterday's targets and top pair): process pending entries, decide the
rebalance, then walk the columns exiting zero-target holdings immediately,
queueing fresh entries as pending, and adjusting held positions to the
target. -/
def stepCore (cfg : Mkt.Config T) (yes today : T → Option Bool)
    (targets : T → ℚ) (ctq : Quadrant × Quadrant) (s : SimState T) :
    SimState T :=
  { positions :=
      if rebalanceRan cfg s ctq yes today then
        fun tk =>
          if tk ∈ cfg.columns then
            (if targets tk = 0 ∧ 0 < posAfterConfirm today s tk then 0
             else if 0 < targets tk ∧ posAfterConfirm today s tk = 0 then
               posAfterConfirm today s tk
             else if 0 < targets tk ∧ 0 < posAfterConfirm today s tk then targets tk
             else posAfterConfirm today s tk)
          else posAfterConfirm today s tk
      else fun tk => posAfterConfirm today s tk
  , pending :=
      if rebalanceRan cfg s ctq yes today then
        fun tk =>
          if tk ∈ cfg.columns ∧ 0 < targets tk ∧ posAfterConfirm today s tk = 0
              ∧ (confirmedOf today s.pending tk).isNone then
            some (targets tk)
          else none
      else fun _ => none
  , prev_top := some ctq
  , prev_ema := yes }

/-- One iteration of the day loop at day `d`: targets, rankings and the
change-detection status are read at `target_date = d − 1`, while the
confirmation status is read at `d` itself. -/
def dayStep (cfg : Mkt.Config T) (prices : ℕ → T → ℚ) (d : ℕ)
    (s : SimState T) : SimState T :=
  stepCore cfg (fun tk => Mkt.emaStatus cfg prices (d - 1) tk)
    (fun tk => Mkt.emaStatus cfg prices d tk)
    (fun tk => target_weight cfg prices (d - 1) tk)
    (topQuadsAt cfg prices (d - 1)) s

/-- The state after `i` iterations; iteration `i ≥ 1` handles day
`warmup + i` and its `positions` earn day `warmup + i`'s return. -/
def stateAt (cfg : Mkt.Config T) (prices : ℕ → T → ℚ) : ℕ → SimState T
  | 0 => ⟨fun _ => 0, fun _ => none, none, fun _ => none⟩
  | i + 1 => dayStep cfg prices (cfg.momentum_days + (i + 1)) (stateAt cfg prices i)

end Cur

/-!
## Concrete instance for the entry-lag counterexample

Four tickers, one per quadrant; `momentum_days = 1`, `ema_period = 3`
(smoothing factor `1/2`), `vol_lookback = 1`, constant volatility kernel.
-/

inductive TK : Type
  | tA | tB | tC | tD
  deriving DecidableEq, Repr

/-- Concrete configuration for the day-loop instances. -/
def cfgC : Mkt.Config TK :=
  { columns := [TK.tA, TK.tB, TK.tC, TK.tD]
  , alloc := fun q => match q with
      | Quadrant.Q1 => [TK.tA]
      | Quadrant.Q2 => [TK.tB]
      | Quadrant.Q3 => [TK.tC]
      | Quadrant.Q4 => [TK.tD]
  , indicators := fun q => match q with
      | Quadrant.Q1 => [TK.tA]
      | Quadrant.Q2 => [TK.tB]
      | Quadrant.Q3 => [TK.tC]
      | Quadrant.Q4 => [TK.tD]
  , momentum_days := 1
  , ema_period := 3
  , vol_lookback := 1
  , stdFn := fun _ => 1 }

/-- The shared price history of days `0, 1, 2`: ticker `tA` trends up above
its EMA (quadrant `Q1` leads), the others trend flat or down. -/
def pxBase : ℕ → TK → ℚ := fun u tk =>
  match tk with
  | TK.tA => if u = 0 then 100 else if u = 1 then 110 else 120
  | TK.tB => 100
  | TK.tC => if u = 0 then 100 else if u = 1 then 90 else 85
  | TK.tD => if u = 0 then 100 else if u = 1 then 95 else 94

/-- Price table in which `tA` keeps rising on day 3 (stays above its EMA). -/
def pxA : ℕ → TK → ℚ := fun u tk =>
  if 3 ≤ u ∧ tk = TK.tA then 130 else pxBase u tk

/-- Price table in which `tA` crashes below its EMA on day 3. -/
def pxB : ℕ → TK → ℚ := fun u tk =>
  if 3 ≤ u ∧ tk = TK.tA then 50 else pxBase u tk

@[simp] lemma beq_tA_tA : (TK.tA == TK.tA) = true := rfl

@[simp] lemma beq_tB_tA : (TK.tB == TK.tA) = false := rfl

@[simp] lemma beq_tC_tA : (TK.tC == TK.tA) = false := rfl

@[simp] lemma beq_tD_tA : (TK.tD == TK.tA) = false := rfl

set_option maxHeartbeats 2000000 in
/-- **C1 (counterexample).** In `quad_portfolio_backtest_ENTRY_LAG_CURRENT`
the claim as stated fails: the two price tables agree on every day strictly
before day `3 = warmup + 2`, yet the positions that earn day 3's return
differ, because the pending entry in ticker `tA` is confirmed against day
3's *own* price/EMA trend status before day 3's P&L is computed. -/
theorem entry_lag_counterexample :
    (∀ u : ℕ, u < cfgC.momentum_days + 2 → ∀ tk : TK, pxA u tk = pxB u tk) ∧
    (Cur.stateAt cfgC pxA 2).positions TK.tA
      ≠ (Cur.stateAt cfgC pxB 2).positions TK.tA := by
  constructor
  · intro u hu tk
    have hu3 : u < 3 := by simpa [cfgC] using hu
    unfold pxA pxB
    rw [if_neg (fun hh => absurd hh.1 (by omega)),
      if_neg (fun hh => absurd hh.1 (by omega))]
  · have hA : (Cur.stateAt cfgC pxA 2).positions TK.tA = 3 / 2 := by
      norm_num [Cur.stateAt, Cur.dayStep, Cur.stepCore, Cur.posAfterConfirm,
        Cur.confirmedOf, Cur.anyConfirmed, Cur.should_rebalance, Cur.rebalanceRan,
        Cur.emaPass, Cur.target_weight, Cur.final_weights, Cur.vol_weights,
        Cur.quad_weight, Cur.topQuadsAt, Cur.quadScore, VW.emaPassAt,
        Mkt.emaStatus, Mkt.ema, Mkt.quadVolsAt, Mkt.vol, Mkt.dailyRet,
        Mkt.crossover, determine_top_quads, sort_values_desc, sortDescBy,
        insDesc, quadList, quadIdx, SG.upsert, cfgC, pxA, pxB, pxBase,
        List.foldl, List.filterMap, List.filter, List.any, List.lookup]
    have hB : (Cur.stateAt cfgC pxB 2).positions TK.tA = 0 := by
      norm_num [Cur.stateAt, Cur.dayStep, Cur.stepCore, Cur.posAfterConfirm,
        Cur.confirmedOf, Cur.anyConfirmed, Cur.should_rebalance, Cur.rebalanceRan,
        Cur.emaPass, Cur.target_weight, Cur.final_weights, Cur.vol_weights,
        Cur.quad_weight, Cur.topQuadsAt, Cur.quadScore, VW.emaPassAt,
        Mkt.emaStatus, Mkt.ema, Mkt.quadVolsAt, Mkt.vol, Mkt.dailyRet,
        Mkt.crossover, determine_top_quads, sort_values_desc, sortDescBy,
        insDesc, quadList, quadIdx, SG.upsert, cfgC, pxA, pxB, pxBase,
        List.foldl, List.filterMap, List.filter, List.any, List.lookup]
    rw [hA, hB]
    norm_num

/-- Price table jumping to `7` from day 2 onward. -/
def pxW : ℕ → TK → ℚ := fun u _ => if 2 ≤ u then 7 else 3

/-- Price table constant at `3`. -/
def pxW2 : ℕ → TK → ℚ := fun _ _ => 3

/-- Witness for C1 (amended): `cfgC` has `vol_lookback = 1 ≤ momentum_days
= 1`, the two price tables agree strictly before day `warmup + 1 = 2` and
differ afterwards, yet the volweight positions earning day 2's return
coincide. -/
theorem no_look_ahead_volweight_witness :
    (VW.stateAt cfgC pxW 1).positions TK.tA
      = (VW.stateAt cfgC pxW2 1).positions TK.tA := by
  apply VW.no_look_ahead_volweight cfgC pxW pxW2 1 (by decide)
  intro u hu tk
  have hu2 : u < 2 := by simpa [cfgC] using hu
  unfold pxW pxW2
  rw [if_neg (by omega)]

/-!
## `quad_portfolio_backtest_ENTRY_LAG_2D.py` — the 2-day pending state machine

Same structure as the 1-day variant, but pending entries carry a
`days_waiting` counter and both the pending processing and the change
detection run on the `target_date` (`T − 1`) EMA status; an entry confirms
once it has waited two passing days.
-/

namespace Lag2D

variable {T : Type} [DecidableEq T]

/-- The mutable state of the day loop:
`pending_entries = {ticker: {'weight': w, 'days_waiting': n}}`. -/
structure SimState (T : Type) where
  positions : T → ℚ
  pending : T → Option (ℚ × ℕ)
  prev_top : Option (Quadrant × Quadrant)
  prev_ema : T → Option Bool

/-- The pending-processing loop, per ticker: on a passing filter
`days_waiting += 1`, and the entry stays pending unless the 2-day lag is
reached (then it leaves the dict as a confirmed entry); a failing filter
deletes it (rejected). -/
def pendingAfter (ces : T → Option Bool) (pending : T → Option (ℚ × ℕ))
    (tk : T) : Option (ℚ × ℕ) :=
  match pending tk with
  | none => none
  | some (w, dw) =>
      if Cur.emaPass ces tk then
        (if 2 ≤ dw + 1 then none else some (w, dw + 1))
      else none

/-- `confirmed_entries`, per ticker: the pending weight, released exactly
when the filter passes and the incremented counter reaches the 2-day lag. -/
def confirmedOf (ces : T → Option Bool) (pending : T → Option (ℚ × ℕ))
    (tk : T) : Option ℚ :=
  match pending tk with
  | none => none
  | some (w, dw) => if Cur.emaPass ces tk ∧ 2 ≤ dw + 1 then some w else none

/-- `len(confirmed_entries) > 0` (pending entries only exist for frame
columns). -/
def anyConfirmed (cfg : Mkt.Config T) (ces : T → Option Bool)
    (pending : T → Option (ℚ × ℕ)) : Bool :=
  cfg.columns.any fun tk => (confirmedOf ces pending tk).isSome

/-- The rebalance trigger (first day, top-pair change, EMA crossover). -/
def should_rebalance (cfg : Mkt.Config T) (s : SimState T)
    (ctq : Quadrant × Quadrant) (ces : T → Option Bool) : Bool :=
  match s.prev_top with
  | none => true
  | some pt => (if ctq = pt then false else true) || Mkt.crossover cfg ces s.prev_ema

/-- `should_rebalance or len(confirmed_entries) > 0`. -/
def rebalanceRan (cfg : Mkt.Config T) (s : SimState T)
    (ctq : Quadrant × Quadrant) (ces : T → Option Bool) : Bool :=
  should_rebalance cfg s ctq ces || anyConfirmed cfg ces s.pending

/-- Positions right after the confirmed entries are applied. -/
def posAfterConfirm (ces : T → Option Bool) (s : SimState T) (tk : T) : ℚ :=
  match confirmedOf ces s.pending tk with
  | some w => w
  | none => s.positions tk

/-- The per-day core of `run_backtest` (lines 249–307): process pending
entries, decide the rebalance, then walk the columns — exiting zero-target
holdings immediately, queueing fresh entries as `{'weight': target,
'days_waiting': 0}` when the ticker is neither confirmed nor still pending,
and adjusting held positions to the target. -/
def stepCore (cfg : Mkt.Config T) (ces : T → Option Bool) (targets : T → ℚ)
    (ctq : Quadrant × Quadrant) (s : SimState T) : SimState T :=
  { positions :=
      if rebalanceRan cfg s ctq ces then
        fun tk =>
          if tk ∈ cfg.columns then
            (if targets tk = 0 ∧ 0 < posAfterConfirm ces s tk then 0
             else if 0 < targets tk ∧ posAfterConfirm ces s tk = 0 then
               posAfterConfirm ces s tk
             else if 0 < targets tk ∧ 0 < posAfterConfirm ces s tk then targets tk
             else posAfterConfirm ces s tk)
          else posAfterConfirm ces s tk
      else fun tk => posAfterConfirm ces s tk
  , pending :=
      if rebalanceRan cfg s ctq ces then
        fun tk =>
          if tk ∈ cfg.columns ∧ 0 < targets tk ∧ posAfterConfirm ces s tk = 0
              ∧ (confirmedOf ces s.pending tk).isNone
              ∧ (pendingAfter ces s.pending tk).isNone then
            some (targets tk, 0)
          else pendingAfter ces s.pending tk
      else fun tk => pendingAfter ces s.pending tk
  , prev_top := some ctq
  , prev_ema := ces }

lemma pending_update (cfg : Mkt.Config T) (ces : T → Option Bool)
    (targets : T → ℚ) (ctq : Quadrant × Quadrant) (s : SimState T) (tk : T)
    (hreb : rebalanceRan cfg s ctq ces = true) :
    (stepCore cfg ces targets ctq s).pending tk
      = if tk ∈ cfg.columns ∧ 0 < targets tk ∧ posAfterConfirm ces s tk = 0
            ∧ (confirmedOf ces s.pending tk).isNone
            ∧ (pendingAfter ces s.pending tk).isNone then
          some (targets tk, 0)
        else pendingAfter ces s.pending tk := by
  unfold stepCore
  simp only [hreb, if_true]

lemma positions_update (cfg : Mkt.Config T) (ces : T → Option Bool)
    (targets : T → ℚ) (ctq : Quadrant × Quadrant) (s : SimState T) (tk : T)
    (hreb : rebalanceRan cfg s ctq ces = true) (hcol : tk ∈ cfg.columns) :
    (stepCore cfg ces targets ctq s).positions tk
      = (if targets tk = 0 ∧ 0 < posAfterConfirm ces s tk then 0
         else if 0 < targets tk ∧ posAfterConfirm ces s tk = 0 then
           posAfterConfirm ces s tk
         else if 0 < targets tk ∧ 0 < posAfterConfirm ces s tk then targets tk
         else posAfterConfirm ces s tk) := by
  unfold stepCore
  simp only [hreb, if_true, hcol]

end Lag2D

namespace Cur

variable {T : Type} [DecidableEq T]

lemma cur_pending_update (cfg : Mkt.Config T) (yes today : T → Option Bool)
    (targets : T → ℚ) (ctq : Quadrant × Quadrant) (s : SimState T) (tk : T)
    (hreb : rebalanceRan cfg s ctq yes today = true) :
    (stepCore cfg yes today targets ctq s).pending tk
      = if tk ∈ cfg.columns ∧ 0 < targets tk ∧ posAfterConfirm today s tk = 0
            ∧ (confirmedOf today s.pending tk).isNone then
          some (targets tk)
        else none := by
  unfold stepCore
  simp only [hreb, if_true]

lemma cur_pending_update_noreb (cfg : Mkt.Config T) (yes today : T → Option Bool)
    (targets : T → ℚ) (ctq : Quadrant × Quadrant) (s : SimState T) (tk : T)
    (hreb : rebalanceRan cfg s ctq yes today = false) :
    (stepCore cfg yes today targets ctq s).pending tk = none := by
  unfold stepCore
  simp only [hreb, Bool.false_eq_true, if_false]

lemma cur_positions_update (cfg : Mkt.Config T) (yes today : T → Option Bool)
    (targets : T → ℚ) (ctq : Quadrant × Quadrant) (s : SimState T) (tk : T)
    (hreb : rebalanceRan cfg s ctq yes today = true) (hcol : tk ∈ cfg.columns) :
    (stepCore cfg yes today targets ctq s).positions tk
      = (if targets tk = 0 ∧ 0 < posAfterConfirm today s tk then 0
         else if 0 < targets tk ∧ posAfterConfirm today s tk = 0 then
           posAfterConfirm today s tk
         else if 0 < targets tk ∧ 0 < posAfterConfirm today s tk then targets tk
         else posAfterConfirm today s tk) := by
  unfold stepCore
  simp only [hreb, if_true, hcol]

lemma cur_positions_update_noreb (cfg : Mkt.Config T) (yes today : T → Option Bool)
    (targets : T → ℚ) (ctq : Quadrant × Quadrant) (s : SimState T) (tk : T)
    (hreb : rebalanceRan cfg s ctq yes today = false) :
    (stepCore cfg yes today targets ctq s).positions tk
      = posAfterConfirm today s tk := by
  unfold stepCore
  simp only [hreb, Bool.false_eq_true, if_false]

end Cur

namespace Lag2D

variable {T : Type} [DecidableEq T]

lemma pending_update_noreb (cfg : Mkt.Config T) (ces : T → Option Bool)
    (targets : T → ℚ) (ctq : Quadrant × Quadrant) (s : SimState T) (tk : T)
    (hreb : rebalanceRan cfg s ctq ces = false) :
    (stepCore cfg ces targets ctq s).pending tk
      = pendingAfter ces s.pending tk := by
  unfold stepCore
  simp only [hreb, Bool.false_eq_true, if_false]

lemma positions_update_noreb (cfg : Mkt.Config T) (ces : T → Option Bool)
    (targets : T → ℚ) (ctq : Quadrant × Quadrant) (s : SimState T) (tk : T)
    (hreb : rebalanceRan cfg s ctq ces = false) :
    (stepCore cfg ces targets ctq s).positions tk
      = posAfterConfirm ces s tk := by
  unfold stepCore
  simp only [hreb, Bool.false_eq_true, if_false]

/-- Positions only change through confirmed entries or the rebalance walk;
with a zero position (and no confirmation) they stay zero. -/
lemma positions_zero (cfg : Mkt.Config T) (ces : T → Option Bool)
    (targets : T → ℚ) (ctq : Quadrant × Quadrant) (s : SimState T) (tk : T)
    (h0 : posAfterConfirm ces s tk = 0) :
    (stepCore cfg ces targets ctq s).positions tk = 0 := by
  by_cases hreb : rebalanceRan cfg s ctq ces = true
  · by_cases hcol : tk ∈ cfg.columns
    · rw [positions_update cfg ces targets ctq s tk hreb hcol, h0]
      rw [if_neg fun hh => lt_irrefl 0 hh.2]
      by_cases ht : 0 < targets tk
      · rw [if_pos ⟨ht, rfl⟩]
      · rw [if_neg fun hh => ht hh.1, if_neg fun hh => ht hh.1]
    · unfold stepCore
      simp only [hreb, if_true]
      rw [if_neg hcol, h0]
  · rw [positions_update_noreb cfg ces targets ctq s tk
      (Bool.eq_false_iff.mpr hreb), h0]

end Lag2D

namespace Cur

variable {T : Type} [DecidableEq T]

lemma cur_positions_zero (cfg : Mkt.Config T) (yes today : T → Option Bool)
    (targets : T → ℚ) (ctq : Quadrant × Quadrant) (s : SimState T) (tk : T)
    (h0 : posAfterConfirm today s tk = 0) :
    (stepCore cfg yes today targets ctq s).positions tk = 0 := by
  by_cases hreb : rebalanceRan cfg s ctq yes today = true
  · by_cases hcol : tk ∈ cfg.columns
    · rw [cur_positions_update cfg yes today targets ctq s tk hreb hcol, h0]
      rw [if_neg fun hh => lt_irrefl 0 hh.2]
      by_cases ht : 0 < targets tk
      · rw [if_pos ⟨ht, rfl⟩]
      · rw [if_neg fun hh => ht hh.1, if_neg fun hh => ht hh.1]
    · unfold stepCore
      simp only [hreb, if_true]
      rw [if_neg hcol, h0]
  · rw [cur_positions_update_noreb cfg yes today targets ctq s tk
      (Bool.eq_false_iff.mpr hreb), h0]

end Cur

/-- **C4.** The pending-entry state machine of the entry-lag backtests.  In
the 2-day variant: a rebalance that assigns positive target weight to a
ticker with no position and no pending or confirmed entry creates a pending
entry with `days_waiting = 0`; on each later day the counter increments only
while the trend filter passes; the entry confirms exactly when the
incremented counter reaches the 2-day lag, and the position then ends the
day at that day's target weight; a filter failure before confirmation
rejects and discards the entry, no position opens from it, and any
subsequent fresh entry restarts at `days_waiting = 0`.  In the 1-day variant
the same holds with a single waiting day: a pending entry confirms on the
next day exactly when that day's filter passes, otherwise it is rejected
with no position opened. -/
theorem pending_entry_state_machine {T : Type} [DecidableEq T]
    (cfg : Mkt.Config T) (ces yes today : T → Option Bool) (targets : T → ℚ)
    (ctq : Quadrant × Quadrant) (s : Lag2D.SimState T) (sc : Cur.SimState T)
    (tk : T) (hsupp : ∀ t : T, (s.pending t).isSome → t ∈ cfg.columns) :
    (Lag2D.rebalanceRan cfg s ctq ces = true → tk ∈ cfg.columns →
      s.pending tk = none → s.positions tk = 0 → 0 < targets tk →
      (Lag2D.stepCore cfg ces targets ctq s).pending tk = some (targets tk, 0)) ∧
    (∀ (w : ℚ) (dw : ℕ), s.pending tk = some (w, dw) →
      Cur.emaPass ces tk = true → dw + 1 < 2 →
      (Lag2D.stepCore cfg ces targets ctq s).pending tk = some (w, dw + 1) ∧
      (s.positions tk = 0 →
        (Lag2D.stepCore cfg ces targets ctq s).positions tk = 0)) ∧
    (∀ (w : ℚ) (dw : ℕ), s.pending tk = some (w, dw) →
      Cur.emaPass ces tk = true → 2 ≤ dw + 1 → 0 < w → 0 ≤ targets tk →
      (Lag2D.stepCore cfg ces targets ctq s).pending tk = none ∧
      (Lag2D.stepCore cfg ces targets ctq s).positions tk = targets tk) ∧
    (∀ (w : ℚ) (dw : ℕ), s.pending tk = some (w, dw) →
      Cur.emaPass ces tk = false → s.positions tk = 0 →
      (Lag2D.stepCore cfg ces targets ctq s).positions tk = 0 ∧
      (Lag2D.stepCore cfg ces targets ctq s).pending tk
        = (if Lag2D.rebalanceRan cfg s ctq ces = true ∧ tk ∈ cfg.columns
              ∧ 0 < targets tk then some (targets tk, 0) else none)) ∧
    (∀ w : ℚ, sc.pending tk = some w → Cur.emaPass today tk = true →
      0 < w → 0 ≤ targets tk → tk ∈ cfg.columns →
      (Cur.stepCore cfg yes today targets ctq sc).positions tk = targets tk ∧
      (Cur.stepCore cfg yes today targets ctq sc).pending tk = none) ∧
    (∀ w : ℚ, sc.pending tk = some w → Cur.emaPass today tk = false →
      sc.positions tk = 0 →
      (Cur.stepCore cfg yes today targets ctq sc).positions tk = 0 ∧
      (Cur.stepCore cfg yes today targets ctq sc).pending tk
        = (if Cur.rebalanceRan cfg sc ctq yes today = true ∧ tk ∈ cfg.columns
              ∧ 0 < targets tk then some (targets tk) else none)) := by
  refine ⟨?_, ?_, ?_, ?_, ?_, ?_⟩
  · -- (1) creation
    intro hreb hcol hp hpos ht
    have hconf : Lag2D.confirmedOf ces s.pending tk = none := by
      unfold Lag2D.confirmedOf
      rw [hp]
    have hpa : Lag2D.pendingAfter ces s.pending tk = none := by
      unfold Lag2D.pendingAfter
      rw [hp]
    have hposA : Lag2D.posAfterConfirm ces s tk = 0 := by
      unfold Lag2D.posAfterConfirm
      rw [hconf]
      exact hpos
    rw [Lag2D.pending_update cfg ces targets ctq s tk hreb]
    rw [if_pos ⟨hcol, ht, hposA, by rw [hconf]; rfl, by rw [hpa]; rfl⟩]
  · -- (2) waiting
    intro w dw hp hpass hlag
    have hpa : Lag2D.pendingAfter ces s.pending tk = some (w, dw + 1) := by
      unfold Lag2D.pendingAfter
      rw [hp]
      dsimp only
      rw [if_pos hpass, if_neg (by omega : ¬ 2 ≤ dw + 1)]
    have hconf : Lag2D.confirmedOf ces s.pending tk = none := by
      unfold Lag2D.confirmedOf
      rw [hp]
      dsimp only
      rw [if_neg fun hh => absurd hh.2 (by omega)]
    constructor
    · by_cases hreb : Lag2D.rebalanceRan cfg s ctq ces = true
      · rw [Lag2D.pending_update cfg ces targets ctq s tk hreb]
        rw [if_neg fun hh => by
          have h5 := hh.2.2.2.2
          rw [hpa] at h5
          simp at h5]
        exact hpa
      · rw [Lag2D.pending_update_noreb cfg ces targets ctq s tk
          (Bool.eq_false_iff.mpr hreb)]
        exact hpa
    · intro hpos0
      apply Lag2D.positions_zero
      unfold Lag2D.posAfterConfirm
      rw [hconf]
      exact hpos0
  · -- (3) confirmation
    intro w dw hp hpass hlag hw htg
    have hcol : tk ∈ cfg.columns := hsupp tk (by rw [hp]; rfl)
    have hconf : Lag2D.confirmedOf ces s.pending tk = some w := by
      unfold Lag2D.confirmedOf
      rw [hp]
      dsimp only
      rw [if_pos ⟨hpass, hlag⟩]
    have hposA : Lag2D.posAfterConfirm ces s tk = w := by
      unfold Lag2D.posAfterConfirm
      rw [hconf]
    have hpa : Lag2D.pendingAfter ces s.pending tk = none := by
      unfold Lag2D.pendingAfter
      rw [hp]
      dsimp only
      rw [if_pos hpass, if_pos hlag]
    have hreb : Lag2D.rebalanceRan cfg s ctq ces = true := by
      unfold Lag2D.rebalanceRan Lag2D.anyConfirmed
      have h2 : (cfg.columns.any fun t => (Lag2D.confirmedOf ces s.pending t).isSome)
          = true :=
        List.any_eq_true.mpr ⟨tk, hcol, by rw [hconf]; rfl⟩
      rw [h2, Bool.or_true]
    constructor
    · rw [Lag2D.pending_update cfg ces targets ctq s tk hreb]
      rw [if_neg fun hh => by
        have h4 := hh.2.2.2.1
        rw [hconf] at h4
        simp at h4]
      exact hpa
    · rw [Lag2D.positions_update cfg ces targets ctq s tk hreb hcol, hposA]
      rcases lt_or_eq_of_le htg with ht | ht
      · rw [if_neg fun hh => absurd hh.1 (ne_of_gt ht),
          if_neg fun hh => absurd hh.2 (ne_of_gt hw),
          if_pos ⟨ht, hw⟩]
      · rw [if_pos ⟨ht.symm, hw⟩]
        exact ht
  · -- (4) rejection
    intro w dw hp hfail hpos0
    have hconf : Lag2D.confirmedOf ces s.pending tk = none := by
      unfold Lag2D.confirmedOf
      rw [hp]
      dsimp only
      rw [if_neg (by simp [hfail])]
    have hpa : Lag2D.pendingAfter ces s.pending tk = none := by
      unfold Lag2D.pendingAfter
      rw [hp]
      dsimp only
      rw [if_neg (by simp [hfail])]
    have hposA : Lag2D.posAfterConfirm ces s tk = 0 := by
      unfold Lag2D.posAfterConfirm
      rw [hconf]
      exact hpos0
    refine ⟨Lag2D.positions_zero cfg ces targets ctq s tk hposA, ?_⟩
    by_cases hreb : Lag2D.rebalanceRan cfg s ctq ces = true
    · rw [Lag2D.pending_update cfg ces targets ctq s tk hreb]
      by_cases hcase : tk ∈ cfg.columns ∧ 0 < targets tk
      · rw [if_pos ⟨hcase.1, hcase.2, hposA, by rw [hconf]; rfl, by rw [hpa]; rfl⟩,
          if_pos ⟨hreb, hcase.1, hcase.2⟩]
      · rw [if_neg fun hh => hcase ⟨hh.1, hh.2.1⟩,
          if_neg fun hh => hcase ⟨hh.2.1, hh.2.2⟩]
        exact hpa
    · rw [Lag2D.pending_update_noreb cfg ces targets ctq s tk
        (Bool.eq_false_iff.mpr hreb)]
      rw [if_neg fun hh => hreb hh.1]
      exact hpa
  · -- (5) 1-day confirmation
    intro w hp hpass hw htg hcol
    have hconf : Cur.confirmedOf today sc.pending tk = some w := by
      unfold Cur.confirmedOf
      rw [hp]
      dsimp only
      rw [if_pos hpass]
    have hposA : Cur.posAfterConfirm today sc tk = w := by
      unfold Cur.posAfterConfirm
      rw [hconf]
    have hreb : Cur.rebalanceRan cfg sc ctq yes today = true := by
      unfold Cur.rebalanceRan Cur.anyConfirmed
      have h2 : (cfg.columns.any fun t => (Cur.confirmedOf today sc.pending t).isSome)
          = true :=
        List.any_eq_true.mpr ⟨tk, hcol, by rw [hconf]; rfl⟩
      rw [h2, Bool.or_true]
    constructor
    · rw [Cur.cur_positions_update cfg yes today targets ctq sc tk hreb hcol, hposA]
      rcases lt_or_eq_of_le htg with ht | ht
      · rw [if_neg fun hh => absurd hh.1 (ne_of_gt ht),
          if_neg fun hh => absurd hh.2 (ne_of_gt hw),
          if_pos ⟨ht, hw⟩]
      · rw [if_pos ⟨ht.symm, hw⟩]
        exact ht
    · rw [Cur.cur_pending_update cfg yes today targets ctq sc tk hreb]
      rw [if_neg fun hh => by
        have h4 := hh.2.2.2
        rw [hconf] at h4
        simp at h4]
  · -- (6) 1-day rejection
    intro w hp hfail hpos0
    have hconf : Cur.confirmedOf today sc.pending tk = none := by
      unfold Cur.confirmedOf
      rw [hp]
      dsimp only
      rw [if_neg (by simp [hfail])]
    have hposA : Cur.posAfterConfirm today sc tk = 0 := by
      unfold Cur.posAfterConfirm
      rw [hconf]
      exact hpos0
    refine ⟨Cur.cur_positions_zero cfg yes today targets ctq sc tk hposA, ?_⟩
    by_cases hreb : Cur.rebalanceRan cfg sc ctq yes today = true
    · rw [Cur.cur_pending_update cfg yes today targets ctq sc tk hreb]
      by_cases hcase : tk ∈ cfg.columns ∧ 0 < targets tk
      · rw [if_pos ⟨hcase.1, hcase.2, hposA, by rw [hconf]; rfl⟩,
          if_pos ⟨hreb, hcase.1, hcase.2⟩]
      · rw [if_neg fun hh => hcase ⟨hh.1, hh.2.1⟩,
          if_neg fun hh => hcase ⟨hh.2.1, hh.2.2⟩]
    · rw [Cur.cur_pending_update_noreb cfg yes today targets ctq sc tk
        (Bool.eq_false_iff.mpr hreb)]
      rw [if_neg fun hh => hreb hh.1]

/-- All-passing EMA status for the C4 witness. -/
def cesW : TK → Option Bool := fun _ => some true

/-- Target row giving ticker `tA` weight `1` for the C4 witness. -/
def targetsW : TK → ℚ := fun tk => if tk = TK.tA then 1 else 0

/-- 2-day machine state: `tA` pending with `days_waiting = 1`, flat book. -/
def s2dW : Lag2D.SimState TK :=
  { positions := fun _ => 0
  , pending := fun tk => if tk = TK.tA then some ((1 : ℚ), 1) else none
  , prev_top := some (Quadrant.Q1, Quadrant.Q2)
  , prev_ema := fun _ => some true }

/-- 1-day machine state: `tA` pending, flat book. -/
def scW : Cur.SimState TK :=
  { positions := fun _ => 0
  , pending := fun tk => if tk = TK.tA then some (1 : ℚ) else none
  , prev_top := some (Quadrant.Q1, Quadrant.Q2)
  , prev_ema := fun _ => some true }

/-- Witness for C4: after one more passing day the 2-day pending entry in
`tA` confirms (leaves the dict) and the position ends the day at the target
weight; the 1-day machine confirms likewise. -/
theorem pending_entry_state_machine_witness :
    ((Lag2D.stepCore cfgC cesW targetsW (Quadrant.Q1, Quadrant.Q2) s2dW).pending TK.tA
        = none ∧
      (Lag2D.stepCore cfgC cesW targetsW (Quadrant.Q1, Quadrant.Q2) s2dW).positions TK.tA
        = targetsW TK.tA) ∧
    ((Cur.stepCore cfgC cesW cesW targetsW (Quadrant.Q1, Quadrant.Q2) scW).positions TK.tA
        = targetsW TK.tA ∧
      (Cur.stepCore cfgC cesW cesW targetsW (Quadrant.Q1, Quadrant.Q2) scW).pending TK.tA
        = none) := by
  have hs : ∀ t : TK, (s2dW.pending t).isSome → t ∈ cfgC.columns := by
    intro t ht
    cases t <;> simp_all [cfgC, s2dW]
  have h := pending_entry_state_machine cfgC cesW cesW cesW targetsW
    (Quadrant.Q1, Quadrant.Q2) s2dW scW TK.tA hs
  exact ⟨h.2.2.1 1 1 rfl rfl (by norm_num) (by norm_num) (by norm_num [targetsW]),
    h.2.2.2.2.1 1 rfl rfl (by norm_num) (by norm_num [targetsW]) (by simp [cfgC])⟩
